import Mathlib

/-!
# Balancer: reverse-proxy load balancer with per-client token buckets

A shallow embedding of the Go packages `internal/ratelimiter`,
`internal/balancer`, `internal/proxy`, `internal/storage` and `internal/api`,
followed by theorems about them.

Conventions of the embedding

* Go `int` is `Int`; where a Go operation can leave the 64-bit range the
  result is wrapped with `wrapInt` (two's complement).  `uint64` is `Nat`
  reduced modulo `2 ^ 64`.
* A `time.Time` obtained from `time.Now()` is its monotonic clock reading in
  nanoseconds (`Int`).  Every function that calls `time.Now()` takes the
  reading as an argument `now`.
* A `float64` is a pair `(m, s)` of naturals standing for `m / 2 ^ s`; the
  operations of `Duration.Seconds` round to the nearest such value with a
  53-bit significand, ties to even, computed in integer arithmetic.
* The headers of a request are the lines the client sent; a lookup compares
  canonical header names, as `net/http` stores and looks up headers.
* A mutex-protected method is one atomic state transformer: it takes the
  receiver and returns the updated receiver next to its result.
* A `*Backend` is the position of the backend in `ServerPool.backends`
  together with the `Backend` stored there.
* What the environment decides is an argument of the function that meets it:
  the draw of the random strategy, the outcome of forwarding a request, the
  result of decoding a request body, and the I/O error of the database driver
  during a repository call (`fault`).
-/

namespace Balancer

/-! ## Machine integers and time -/

/-- Smallest value of Go's 64-bit `int`. -/
def minInt : Int := -(2 ^ 63)

/-- Largest value of Go's 64-bit `int` (`int(^uint(0) >> 1)`). -/
def maxInt : Int := 2 ^ 63 - 1

/-- Two's complement wrap of a mathematical integer into the 64-bit `int` range. -/
def wrapInt (x : Int) : Int := (x + 2 ^ 63) % 2 ^ 64 - 2 ^ 63

/-- One second as a `time.Duration` (nanoseconds). -/
def Second : Int := 1000000000

/-- The method `Time.Sub` on two monotonic readings: the difference in
nanoseconds, saturated to the range of `time.Duration` (an `int64`). -/
def timeSub (t u : Int) : Int :=
  if t - u < minInt then minInt
  else if maxInt < t - u then maxInt
  else t - u

/-- The floor of the binary logarithm of `n`, by repeated halving; `fuel`
halvings suffice for `n < 2 ^ fuel`. -/
def log2Floor : Nat → Nat → Nat
  | 0, _ => 0
  | fuel + 1, n => if n < 2 then 0 else log2Floor fuel (n / 2) + 1

/-- The integer nearest to `n / d`, ties to the even one: the rounding of an
IEEE 754 operation. -/
def roundHalfEven (n d : Nat) : Nat :=
  let q := n / d
  let r := n % d
  if 2 * r < d then q
  else if d < 2 * r then q + 1
  else if q % 2 = 0 then q
  else q + 1

/-- The `float64` nearest to the rational `n / d` (for `0 < d` and
`n / d < 2 ^ 53`, the range `Seconds` works in): the pair `(m, s)` stands for the
value `m / 2 ^ s`, with `m` the 53-bit significand rounded to nearest, ties to
even, and `2 ^ -s` the unit in the last place of the binade of `n / d`. -/
def toFloat64 (n d : Nat) : Nat × Nat :=
  if n = 0 then (0, 0)
  else
    let s :=
      if d ≤ n then 52 - log2Floor 64 (n / d)
      else 52 + (log2Floor 64 ((d - 1) / n) + 1)
    (roundHalfEven (n * 2 ^ s) d, s)

/-- The method `Duration.Seconds` on a non-negative duration of `d`
nanoseconds, `float64(sec) + float64(nsec)/1e9` with `sec = d / Second` and
`nsec = d % Second`: both integers convert exactly, the division and the sum
each round to the nearest `float64`.  The result is `m / 2 ^ s` for the pair
returned. -/
def durationSeconds (d : Nat) : Nat × Nat :=
  let sec := d / 1000000000
  let nsec := d % 1000000000
  let q := toFloat64 nsec 1000000000
  toFloat64 (sec * 2 ^ q.2 + q.1) (2 ^ q.2)

/-- The conversion `int(d.Seconds())`: the `float64` seconds of the duration,
truncated toward zero.  A negative duration gives the negated result of its
absolute value, as every step is symmetric in the sign. -/
def wholeSeconds (d : Int) : Int :=
  let f := durationSeconds d.natAbs
  if d < 0 then -((f.1 / 2 ^ f.2 : Nat) : Int) else ((f.1 / 2 ^ f.2 : Nat) : Int)

/-! ## Package storage -/

namespace storage

/-- The record `storage.ClientLimit`. -/
structure ClientLimit where
  ClientID : String
  Capacity : Int
  RefillRate : Int
deriving DecidableEq, Repr

/-- The errors a `ClientRepository` call can return: `ErrNotFound`, the
driver's error for a violated primary key, or any other error of the database
driver (an I/O error). -/
inductive RepoError where
  | notFound
  | conflict
  | failure (msg : String)
deriving DecidableEq, Repr

end storage

/-! ## Package ratelimiter -/

namespace ratelimiter

/-- The record `ratelimiter.ClientLimit`. -/
structure ClientLimit where
  Capacity : Int
  RefillRate : Int
deriving DecidableEq, Repr

/-- The record `tokenBucket`. -/
structure tokenBucket where
  capacity : Int
  refillRate : Int
  tokens : Int
  lastRefilled : Int
deriving DecidableEq, Repr

/-- The constructor `newTokenBucket`; `now` is the reading of `time.Now()`. -/
def newTokenBucket (capacity refillRate : Int) (now : Int) : tokenBucket :=
  { capacity := capacity
    refillRate := refillRate
    tokens := capacity
    lastRefilled := now }

/-- The method `tokenBucket.consume`: the returned flag and the bucket
afterwards.  `tokens--` is only reached with `tokens > 0`, where it cannot
leave the `int` range. -/
def tokenBucket.consume (b : tokenBucket) : Bool × tokenBucket :=
  if b.tokens > 0 then
    (true, { b with tokens := b.tokens - 1 })
  else
    (false, b)

/-- The method `tokenBucket.refill`; `now` is the reading of `time.Now()`.
Both the product and the sum are 64-bit `int` operations. -/
def tokenBucket.refill (b : tokenBucket) (now : Int) : tokenBucket :=
  let elapsed := wholeSeconds (timeSub now b.lastRefilled)
  if elapsed ≤ 0 then
    b
  else
    let tokens := wrapInt (b.tokens + wrapInt (elapsed * b.refillRate))
    let tokens := if tokens > b.capacity then b.capacity else tokens
    { b with tokens := tokens, lastRefilled := now }

/-- The record `RateLimiter`.  `buckets` is the Go map; `repo` is the method
`Get` of the `storage.ClientRepository` the limiter was built with. -/
structure RateLimiter where
  buckets : String → Option tokenBucket
  repo : String → Except storage.RepoError storage.ClientLimit
  defaultCap : Int
  defaultRefill : Int

/-- The map assignment `m[k] = b`. -/
def setBucket (m : String → Option tokenBucket) (k : String) (b : tokenBucket) :
    String → Option tokenBucket :=
  fun k2 => if k2 = k then some b else m k2

/-- The builtin `delete(m, k)`. -/
def deleteBucket (m : String → Option tokenBucket) (k : String) :
    String → Option tokenBucket :=
  fun k2 => if k2 = k then none else m k2

/-- The constructor `NewRateLimiter`.  The goroutine it starts is modelled by
`RateLimiter.refillTokens`, one call per tick of its ticker. -/
def NewRateLimiter (capacity refillRate : Int)
    (repo : String → Except storage.RepoError storage.ClientLimit) : RateLimiter :=
  { buckets := fun _ => none
    repo := repo
    defaultCap := capacity
    defaultRefill := refillRate }

/-- The method `RateLimiter.initBucketForClient`: the new bucket and the
limiter holding it. -/
def RateLimiter.initBucketForClient (rl : RateLimiter) (clientID : String) (now : Int) :
    tokenBucket × RateLimiter :=
  let bucket :=
    match rl.repo clientID with
    | .ok limit => newTokenBucket limit.Capacity limit.RefillRate now
    | .error _ => newTokenBucket rl.defaultCap rl.defaultRefill now
  (bucket, { rl with buckets := setBucket rl.buckets clientID bucket })

/-- The method `RateLimiter.AllowRequest`.  The bucket is a pointer held by the
map, so the consumed bucket is written back under the same key. -/
def RateLimiter.AllowRequest (rl : RateLimiter) (clientID : String) (now : Int) :
    Bool × RateLimiter :=
  let found :=
    match rl.buckets clientID with
    | some bucket => (bucket, rl)
    | none => rl.initBucketForClient clientID now
  let consumed := found.1.consume
  (consumed.1, { found.2 with buckets := setBucket found.2.buckets clientID consumed.2 })

/-- One iteration of the loop of `RateLimiter.refillTokens` (one tick): every
bucket is refilled; `clock clientID` is the reading of `time.Now()` taken inside
the `refill` call on that client's bucket. -/
def RateLimiter.refillTokens (rl : RateLimiter) (clock : String → Int) : RateLimiter :=
  { rl with buckets := fun k => (rl.buckets k).map (fun b => b.refill (clock k)) }

/-- The method `RateLimiter.SetClientLimit`. -/
def RateLimiter.SetClientLimit (rl : RateLimiter) (clientID : String) (limit : ClientLimit)
    (now : Int) : RateLimiter :=
  match rl.buckets clientID with
  | some bucket =>
    let updated := { bucket with capacity := limit.Capacity, refillRate := limit.RefillRate }
    { rl with buckets := setBucket rl.buckets clientID updated }
  | none =>
    let created := newTokenBucket limit.Capacity limit.RefillRate now
    { rl with buckets := setBucket rl.buckets clientID created }

/-- The method `RateLimiter.RemoveClient`. -/
def RateLimiter.RemoveClient (rl : RateLimiter) (clientID : String) : RateLimiter :=
  { rl with buckets := deleteBucket rl.buckets clientID }

/-- The events that touch the limiter: the calls `AllowRequest`,
`SetClientLimit` and `RemoveClient`, one tick of the refill worker, and a write
to the repository by the control plane, after which `Get` answers with `get`. -/
inductive Op where
  | allow (clientID : String) (now : Int)
  | setLimit (clientID : String) (limit : ClientLimit) (now : Int)
  | remove (clientID : String)
  | tick (clock : String → Int)
  | repoWrite (get : String → Except storage.RepoError storage.ClientLimit)

/-- The limiter after one operation. -/
def step (rl : RateLimiter) : Op → RateLimiter
  | .allow c now => (rl.AllowRequest c now).2
  | .setLimit c l now => rl.SetClientLimit c l now
  | .remove c => rl.RemoveClient c
  | .tick clock => rl.refillTokens clock
  | .repoWrite get => { rl with repo := get }

/-- The limiter after a sequence of operations, oldest first. -/
def run (rl : RateLimiter) : List Op → RateLimiter
  | [] => rl
  | op :: ops => run (step rl op) ops

/-- The number of `AllowRequest(c)` calls in the sequence that return `true`. -/
def allowedCount (c : String) (rl : RateLimiter) : List Op → Nat
  | [] => 0
  | .allow d now :: ops =>
    (if d = c ∧ (rl.AllowRequest d now).1 = true then 1 else 0)
      + allowedCount c (step rl (.allow d now)) ops
  | op :: ops => allowedCount c (step rl op) ops

/-- The results of successive `AllowRequest(c)` calls, one per reading of
`time.Now()` in the list, oldest first, and the limiter afterwards. -/
def allowSeq (rl : RateLimiter) (c : String) : List Int → List Bool × RateLimiter
  | [] => ([], rl)
  | now :: nows =>
    let first := rl.AllowRequest c now
    let rest := allowSeq first.2 c nows
    (first.1 :: rest.1, rest.2)

end ratelimiter

/-! ## Predicates on limiter states and operation sequences -/

namespace ratelimiter

/-- The largest value `int(d.Seconds())` can take: the whole seconds of the
largest `time.Duration`. -/
def maxElapsed : Int := 9223372036

/-- The limits of a bucket lie in `[0, M]` (capacity) and `[0, R]` (refill
rate), and its tokens in `[0, M]`. -/
def tokenBucket.Bounded (M R : Int) (b : tokenBucket) : Prop :=
  0 ≤ b.capacity ∧ b.capacity ≤ M ∧ 0 ≤ b.refillRate ∧ b.refillRate ≤ R ∧
    0 ≤ b.tokens ∧ b.tokens ≤ M

/-- The limits a limiter can create a bucket with (the process defaults and
every limit the repository returns) lie in `[0, M]` and `[0, R]`. -/
def RateLimiter.LimitsBounded (M R : Int) (rl : RateLimiter) : Prop :=
  (0 ≤ rl.defaultCap ∧ rl.defaultCap ≤ M ∧ 0 ≤ rl.defaultRefill ∧ rl.defaultRefill ≤ R) ∧
    ∀ c l, rl.repo c = .ok l →
      0 ≤ l.Capacity ∧ l.Capacity ≤ M ∧ 0 ≤ l.RefillRate ∧ l.RefillRate ≤ R

/-- The limits an operation brings in lie in `[0, M]` and `[0, R]`. -/
def Op.LimitsBounded (M R : Int) : Op → Prop
  | .setLimit _ l _ =>
    0 ≤ l.Capacity ∧ l.Capacity ≤ M ∧ 0 ≤ l.RefillRate ∧ l.RefillRate ≤ R
  | .repoWrite get =>
    ∀ c l, get c = .ok l →
      0 ≤ l.Capacity ∧ l.Capacity ≤ M ∧ 0 ≤ l.RefillRate ∧ l.RefillRate ≤ R
  | _ => True

/-- No `SetClientLimit` of the sequence gives an existing bucket a capacity
below the tokens it holds at that moment. -/
def NoLowering (rl : RateLimiter) : List Op → Prop
  | [] => True
  | .setLimit c l now :: ops =>
    (∀ b, rl.buckets c = some b → b.tokens ≤ l.Capacity) ∧
      NoLowering (step rl (.setLimit c l now)) ops
  | op :: ops => NoLowering (step rl op) ops

/-- The operation is neither a refill tick nor `RemoveClient(c)`. -/
def Op.Quiet (c : String) : Op → Prop
  | .tick _ => False
  | .remove d => d ≠ c
  | _ => True

/-- Every bucket the limiter holds is `Bounded`. -/
def RateLimiter.BucketsBounded (M R : Int) (rl : RateLimiter) : Prop :=
  ∀ c b, rl.buckets c = some b → b.Bounded M R

/-- Every bucket the limiter holds has `tokens ≤ capacity`. -/
def RateLimiter.TokensWithinCapacity (rl : RateLimiter) : Prop :=
  ∀ c b, rl.buckets c = some b → b.tokens ≤ b.capacity

/-- The bucket `AllowRequest(c)` consumes from: the one the map holds for `c`,
or else the one `initBucketForClient` creates. -/
def RateLimiter.bucketFor (rl : RateLimiter) (c : String) (now : Int) : tokenBucket :=
  (rl.buckets c).getD (rl.initBucketForClient c now).1

/-- The bucket `SetClientLimit(c, limit)` leaves under `c`. -/
def RateLimiter.bucketAfterSet (rl : RateLimiter) (c : String) (limit : ClientLimit)
    (now : Int) : tokenBucket :=
  match rl.buckets c with
  | some bucket => { bucket with capacity := limit.Capacity, refillRate := limit.RefillRate }
  | none => newTokenBucket limit.Capacity limit.RefillRate now

end ratelimiter

/-! ## Package balancer -/

namespace balancer

/-- The record `Backend` (its lock left out). -/
structure Backend where
  URL : String
  Alive : Bool
  ActiveConnections : Int
deriving DecidableEq, Repr

/-- The constructor `NewBackend`. -/
def NewBackend (url : String) : Backend :=
  { URL := url, Alive := true, ActiveConnections := 0 }

/-- The method `Backend.SetAlive`. -/
def Backend.SetAlive (b : Backend) (alive : Bool) : Backend :=
  { b with Alive := alive }

/-- The method `Backend.IsAlive`. -/
def Backend.IsAlive (b : Backend) : Bool := b.Alive

/-- The method `Backend.IncConnections`; `ActiveConnections++` is a 64-bit
`int` increment. -/
def Backend.IncConnections (b : Backend) : Backend :=
  { b with ActiveConnections := wrapInt (b.ActiveConnections + 1) }

/-- The method `Backend.DecConnections`; the decrement is only reached with
`ActiveConnections > 0`, where it cannot leave the `int` range. -/
def Backend.DecConnections (b : Backend) : Backend :=
  if b.ActiveConnections > 0 then
    { b with ActiveConnections := b.ActiveConnections - 1 }
  else
    b

/-- The method `Backend.GetConnections`. -/
def Backend.GetConnections (b : Backend) : Int := b.ActiveConnections

/-- The method `Backend.ResetConnections`. -/
def Backend.ResetConnections (b : Backend) : Backend :=
  { b with ActiveConnections := 0 }

/-- The implementations of the interface `Strategy`. -/
inductive Strategy where
  | RoundRobin
  | LeastConnectionsStrategy
  | RandomStrategy
deriving DecidableEq, Repr

/-- The function `StrategyFactory`; `none` is the error return. -/
def StrategyFactory (strategyName : String) : Option Strategy :=
  if strategyName = "round_robin" then some .RoundRobin
  else if strategyName = "least_connections" then some .LeastConnectionsStrategy
  else if strategyName = "random" then some .RandomStrategy
  else none

/-- The record `ServerPool`.  `current` is the `uint64` round-robin cursor;
`strategy` is `none` for the nil interface. -/
structure ServerPool where
  backends : List Backend
  current : Nat
  strategy : Option Strategy
deriving DecidableEq, Repr

/-- A `*Backend` of a pool: the position in `backends` and the backend there. -/
abbrev BackendRef := Nat × Backend

/-- The constructor `NewServerPool`. -/
def NewServerPool (urls : List String) : ServerPool :=
  { backends := urls.map NewBackend, current := 0, strategy := none }

/-- The method `ServerPool.SetStrategy`. -/
def ServerPool.SetStrategy (p : ServerPool) (s : Option Strategy) : ServerPool :=
  { p with strategy := s }

/-- The method `ServerPool.GetStrategy`. -/
def ServerPool.GetStrategy (p : ServerPool) : Option Strategy := p.strategy

/-- The loop of `GetAliveBackends` over the backends from position `i` on. -/
def aliveFrom (i : Nat) : List Backend → List BackendRef
  | [] => []
  | b :: bs => if b.IsAlive then (i, b) :: aliveFrom (i + 1) bs else aliveFrom (i + 1) bs

/-- The method `ServerPool.GetAliveBackends`: the alive backends in pool order. -/
def ServerPool.GetAliveBackends (p : ServerPool) : List BackendRef :=
  aliveFrom 0 p.backends

/-- The method `ServerPool.AllBackends`. -/
def ServerPool.AllBackends (p : ServerPool) : List Backend := p.backends

/-- The method `ServerPool.AddBackend`. -/
def ServerPool.AddBackend (p : ServerPool) (url : String) : ServerPool :=
  { p with backends := p.backends ++ [NewBackend url] }

/-- The loop of `MarkBackendAlive`: the first backend with the URL is updated
and the loop breaks. -/
def markFirst (url : String) (alive : Bool) : List Backend → List Backend
  | [] => []
  | b :: bs => if b.URL = url then b.SetAlive alive :: bs else b :: markFirst url alive bs

/-- The method `ServerPool.MarkBackendAlive`. -/
def ServerPool.MarkBackendAlive (p : ServerPool) (url : String) (alive : Bool) : ServerPool :=
  { p with backends := markFirst url alive p.backends }

/-- The method `ServerPool.ResetConnections`. -/
def ServerPool.ResetConnections (p : ServerPool) : ServerPool :=
  { p with backends := p.backends.map Backend.ResetConnections }

/-- A method call through the pointer at position `i`. -/
def updateAt (f : Backend → Backend) : Nat → List Backend → List Backend
  | _, [] => []
  | 0, b :: bs => f b :: bs
  | i + 1, b :: bs => b :: updateAt f i bs

/-- The method `RoundRobin.Next`: the selected backend (`none` for nil) and
the pool with its cursor advanced; `atomic.AddUint64` wraps at `2 ^ 64`. -/
def RoundRobin.Next (p : ServerPool) : Option BackendRef × ServerPool :=
  let alive := p.GetAliveBackends
  if h : alive.length = 0 then
    (none, p)
  else
    let idx : Fin alive.length := ⟨p.current % alive.length, Nat.mod_lt _ (Nat.pos_of_ne_zero h)⟩
    (some (alive.get idx), { p with current := (p.current + 1) % 2 ^ 64 })

/-- The loop of `LeastConnectionsStrategy.Next` from the state `(min,
minConnections)` over the remaining alive backends. -/
def leastScan : Option BackendRef → Int → List BackendRef → Option BackendRef
  | min, _, [] => min
  | min, minConnections, b :: bs =>
    let conns := b.2.GetConnections
    if min = none ∨ conns < minConnections then
      leastScan (some b) conns bs
    else
      leastScan min minConnections bs

/-- The method `LeastConnectionsStrategy.Next`. -/
def LeastConnectionsStrategy.Next (p : ServerPool) : Option BackendRef :=
  let alive := p.GetAliveBackends
  if alive.length = 0 then
    none
  else
    leastScan none maxInt alive

/-- The method `RandomStrategy.Next`.  `rand.Intn(n)` returns some value of
`[0, n)`: it is `draw % n` for the value `draw` the generator yields. -/
def RandomStrategy.Next (p : ServerPool) (draw : Nat) : Option BackendRef :=
  let alive := p.GetAliveBackends
  if h : alive.length = 0 then
    none
  else
    some (alive.get ⟨draw % alive.length, Nat.mod_lt _ (Nat.pos_of_ne_zero h)⟩)

/-- The interface method `Strategy.Next`, dispatched on the implementation. -/
def Strategy.Next (s : Strategy) (p : ServerPool) (draw : Nat) : Option BackendRef × ServerPool :=
  match s with
  | .RoundRobin => RoundRobin.Next p
  | .LeastConnectionsStrategy => (LeastConnectionsStrategy.Next p, p)
  | .RandomStrategy => (RandomStrategy.Next p draw, p)

/-- The method `ServerPool.NextBackend`; `draw` feeds the random strategy. -/
def ServerPool.NextBackend (p : ServerPool) (draw : Nat) : Option BackendRef × ServerPool :=
  match p.strategy with
  | none => (none, p)
  | some strategy => strategy.Next p draw

/-- The pool after successive `NextBackend()` calls, one per draw. -/
def ServerPool.afterCalls (p : ServerPool) : List Nat → ServerPool
  | [] => p
  | draw :: draws => ServerPool.afterCalls (p.NextBackend draw).2 draws

/-- The backends successive `NextBackend()` calls return, one per draw. -/
def ServerPool.selections (p : ServerPool) : List Nat → List (Option BackendRef)
  | [] => []
  | draw :: draws => (p.NextBackend draw).1 :: ServerPool.selections (p.NextBackend draw).2 draws

end balancer

/-! ## HTTP requests and responses -/

/-- The parts of an `http.Request` the handlers read: `r.URL.Path`, the
header lines of the request as the client wrote them (name and value, in
order), and `r.RemoteAddr`. -/
structure Request where
  Path : String
  Header : List (String × String)
  RemoteAddr : String
deriving DecidableEq, Repr

/-- The table `validHeaderFieldByte` of `net/textproto`: the token characters
of RFC 7230, that is the ASCII letters and digits and the characters
`! # $ % & ' * + - . ^ _ | ~` and the grave accent. -/
def validHeaderFieldByte (c : Char) : Bool :=
  let n := c.toNat
  (48 ≤ n ∧ n ≤ 57) ∨ (65 ≤ n ∧ n ≤ 90) ∨ (97 ≤ n ∧ n ≤ 122) ∨ n = 33 ∨
    (35 ≤ n ∧ n ≤ 39) ∨ n = 42 ∨ n = 43 ∨ n = 45 ∨ n = 46 ∨ (94 ≤ n ∧ n ≤ 96) ∨
    n = 124 ∨ n = 126

/-- The loop of `canonicalMIMEHeaderKey`: a letter is put in upper case at the
start and after each dash and in lower case elsewhere; `upper` tells whether
the next character follows a dash. -/
def canonicalLetters : Bool → List Char → List Char
  | _, [] => []
  | upper, c :: cs =>
    let c2 := if upper then c.toUpper else c.toLower
    c2 :: canonicalLetters (c2 = '-') cs

/-- The function `textproto.CanonicalMIMEHeaderKey`: a name made of token
characters only is put in canonical case, any other name is returned as it
is. -/
def CanonicalMIMEHeaderKey (s : String) : String :=
  if s.data.all validHeaderFieldByte then String.mk (canonicalLetters true s.data) else s

/-- The method `Header.Get`: the first value stored under the canonical form
of the key, `""` when there is none.  The server stores every header line it
reads under the canonical form of its name, so a line answers the key when the
two canonical forms agree. -/
def Request.HeaderGet (r : Request) (key : String) : String :=
  match r.Header.find? (fun kv => CanonicalMIMEHeaderKey kv.1 = CanonicalMIMEHeaderKey key) with
  | some kv => kv.2
  | none => ""

/-- What a handler writes to its `http.ResponseWriter`. -/
structure Response where
  status : Nat
  contentType : String
  body : String
deriving DecidableEq, Repr

/-- The function `http.Error`. -/
def httpError (msg : String) (code : Nat) : Response :=
  { status := code, contentType := "text/plain; charset=utf-8", body := msg ++ "\n" }

/-- The function `bytealg.IndexByteString`: position of the first `c`. -/
def indexByte (c : Char) : List Char → Option Nat
  | [] => none
  | x :: xs => if x = c then some 0 else (indexByte c xs).map (fun i => i + 1)

/-- The function `bytealg.LastIndexByteString`: position of the last `c`. -/
def lastIndexByte (c : Char) : List Char → Option Nat
  | [] => none
  | x :: xs =>
    match lastIndexByte c xs with
    | some i => some (i + 1)
    | none => if x = c then some 0 else none

/-- The function `net.SplitHostPort`; `none` is the error return. -/
def SplitHostPort (hostport : String) : Option (String × String) :=
  let s := hostport.data
  match lastIndexByte ':' s with
  | none => none
  | some i =>
    if s.head? = some '[' then
      match indexByte ']' s with
      | none => none
      | some close =>
        if close + 1 = s.length then none
        else if close + 1 = i then
          if (indexByte '[' (s.drop 1)).isSome then none
          else if (indexByte ']' (s.drop (close + 1))).isSome then none
          else some (String.mk ((s.take close).drop 1), String.mk (s.drop (i + 1)))
        else none
    else
      if (indexByte ':' (s.take i)).isSome then none
      else if (indexByte '[' s).isSome then none
      else if (indexByte ']' s).isSome then none
      else some (String.mk (s.take i), String.mk (s.drop (i + 1)))

/-- The predicate `unicode.IsSpace`. -/
def isSpace (c : Char) : Bool :=
  let n := c.toNat
  (9 ≤ n ∧ n ≤ 13) ∨ n = 32 ∨ n = 0x85 ∨ n = 0xA0 ∨ n = 0x1680 ∨ (0x2000 ≤ n ∧ n ≤ 0x200A) ∨
    n = 0x2028 ∨ n = 0x2029 ∨ n = 0x202F ∨ n = 0x205F ∨ n = 0x3000

/-- The function `strings.TrimSpace`. -/
def TrimSpace (s : String) : String :=
  String.mk ((s.data.dropWhile isSpace).reverse.dropWhile isSpace).reverse

/-- The expression `strings.Split(s, ",")[0]`: the text before the first comma. -/
def firstField (s : String) : String :=
  String.mk (s.data.takeWhile (fun c => c ≠ ','))

namespace ratelimiter

/-- The function `extractClientIP` of the middleware. -/
def extractClientIP (r : Request) : String :=
  match SplitHostPort r.RemoteAddr with
  | some hp => hp.1
  | none =>
    if r.HeaderGet "X-Real-IP" ≠ "" then
      r.HeaderGet "X-Real-IP"
    else if r.HeaderGet "X-Forwarded-For" ≠ "" then
      TrimSpace (firstField (r.HeaderGet "X-Forwarded-For"))
    else
      r.RemoteAddr

/-- The value of `clientID` in the handler of `RateLimitMiddleware`: the key
the request is counted under. -/
def clientIDOf (r : Request) : String :=
  if r.HeaderGet "X-Client-ID" = "" then extractClientIP r else r.HeaderGet "X-Client-ID"

/-- The response of the middleware to a denied request. -/
def tooManyRequests : Response :=
  { status := 429
    contentType := "application/json"
    body := "\x7b\"code\":429,\"message\":\"Rate limit exceeded\"\x7d\n" }

/-- The handler `RateLimitMiddleware(rl, logger)(next)`: the response, the
limiter afterwards and the state of `next` afterwards. -/
def RateLimitMiddleware {σ : Type} (next : σ → Request → Response × σ) (rl : RateLimiter)
    (s : σ) (now : Int) (r : Request) : Response × RateLimiter × σ :=
  let clientID := clientIDOf r
  let allowed := rl.AllowRequest clientID now
  if allowed.1 = false then
    (tooManyRequests, allowed.2, s)
  else
    let served := next s r
    (served.1, allowed.2, served.2)

end ratelimiter

/-! ## Package proxy -/

namespace proxy

open balancer

/-- The function `isCriticalError` on the text of the error. -/
def isCriticalError (err : String) : Bool :=
  decide ("database".data <:+: err.data) || decide ("network".data <:+: err.data)

/-- The function `getClientIP` of the proxy handler. -/
def getClientIP (r : Request) : String :=
  if r.HeaderGet "X-Real-IP" ≠ "" then
    TrimSpace (r.HeaderGet "X-Real-IP")
  else if r.HeaderGet "X-Forwarded-For" ≠ "" then
    TrimSpace (firstField (r.HeaderGet "X-Forwarded-For"))
  else
    match SplitHostPort r.RemoteAddr with
    | some hp => hp.1
    | none => ""

/-- The method `ProxyHandler.ServeHTTP` on the pool of the handler.  `draw`
feeds the random strategy; `upstream` is what forwarding to the selected
backend gives: the relayed response, or the text of the transport error that
is handed to `proxy.ErrorHandler`.  The `Director` only rewrites headers of the
outbound request and touches neither the pool nor the response. -/
def ProxyHandler.ServeHTTP (pool : ServerPool) (draw : Nat) (upstream : Except String Response)
    (r : Request) : Response × ServerPool :=
  if r.Path = "/favicon.ico" then
    ({ status := 204, contentType := "", body := "" }, pool)
  else
    match pool.NextBackend draw with
    | (none, pool1) => (httpError "no available backends" 503, pool1)
    | (some backend, pool1) =>
      let pool2 := { pool1 with backends := updateAt Backend.IncConnections backend.1 pool1.backends }
      let served : Response × ServerPool :=
        match upstream with
        | .ok resp => (resp, pool2)
        | .error err =>
          (if isCriticalError err then httpError "Service unavailable due to backend error" 503
            else httpError "Backend error" 502,
            pool2.MarkBackendAlive backend.2.URL false)
      (served.1,
        { served.2 with backends := updateAt Backend.DecConnections backend.1 served.2.backends })

end proxy

/-! ## Package server -/

namespace server

open balancer ratelimiter

/-- The handler `wrappedHandler` of `server.New`: the rate-limit middleware
around the proxy handler, registered for every path outside `/clients`. -/
def wrappedHandler (rl : RateLimiter) (pool : ServerPool) (now : Int) (draw : Nat)
    (upstream : Except String Response) (r : Request) : Response × RateLimiter × ServerPool :=
  RateLimitMiddleware (fun p req => proxy.ProxyHandler.ServeHTTP p draw upstream req) rl pool now r

end server

/-! ## Package storage: the SQLite repository -/

namespace storage

/-- The method `error.Error` on the errors of a repository call. -/
def RepoError.Error : RepoError → String
  | .notFound => "client not found"
  | .conflict => "constraint failed: UNIQUE constraint failed: clients.client_id"
  | .failure msg => msg

/-- The record `SQLiteClientRepo`: the rows of the table `clients`, whose
primary key is `client_id`. -/
structure SQLiteClientRepo where
  rows : List ClientLimit
deriving DecidableEq, Repr

/-- The key `id` is present in the table. -/
def SQLiteClientRepo.has (r : SQLiteClientRepo) (id : String) : Bool :=
  r.rows.any (fun row => row.ClientID = id)

/-- The method `SQLiteClientRepo.Create`.  `fault` is the I/O error of the
driver for this call, if any; the `INSERT` fails on a key that is present. -/
def SQLiteClientRepo.Create (r : SQLiteClientRepo) (fault : Option String) (l : ClientLimit) :
    Option RepoError × SQLiteClientRepo :=
  match fault with
  | some msg => (some (.failure msg), r)
  | none =>
    if r.has l.ClientID then (some .conflict, r)
    else (none, { r with rows := r.rows ++ [l] })

/-- The method `SQLiteClientRepo.Get`. -/
def SQLiteClientRepo.Get (r : SQLiteClientRepo) (fault : Option String) (id : String) :
    Except RepoError ClientLimit :=
  match fault with
  | some msg => .error (.failure msg)
  | none =>
    match r.rows.find? (fun row => row.ClientID = id) with
    | some row => .ok row
    | none => .error .notFound

/-- The method `SQLiteClientRepo.Update`; `ErrNotFound` when no row is affected. -/
def SQLiteClientRepo.Update (r : SQLiteClientRepo) (fault : Option String) (l : ClientLimit) :
    Option RepoError × SQLiteClientRepo :=
  match fault with
  | some msg => (some (.failure msg), r)
  | none =>
    if r.has l.ClientID then
      (none, { r with rows := r.rows.map (fun row =>
        if row.ClientID = l.ClientID then
          { row with Capacity := l.Capacity, RefillRate := l.RefillRate }
        else row) })
    else (some .notFound, r)

/-- The method `SQLiteClientRepo.Delete`; `ErrNotFound` when no row is affected. -/
def SQLiteClientRepo.Delete (r : SQLiteClientRepo) (fault : Option String) (id : String) :
    Option RepoError × SQLiteClientRepo :=
  match fault with
  | some msg => (some (.failure msg), r)
  | none =>
    if r.has id then
      (none, { r with rows := r.rows.filter (fun row => row.ClientID ≠ id) })
    else (some .notFound, r)

/-- The method `SQLiteClientRepo.List`. -/
def SQLiteClientRepo.List (r : SQLiteClientRepo) (fault : Option String) :
    Except RepoError (List ClientLimit) :=
  match fault with
  | some msg => .error (.failure msg)
  | none => .ok r.rows

/-- What `Get` answers on the table when the driver does not fail: the view
the rate limiter has of the repository. -/
def SQLiteClientRepo.view (r : SQLiteClientRepo) : String → Except RepoError ClientLimit :=
  fun id => r.Get none id

end storage

/-! ## Package balancer: sequences of connection-counter calls -/

namespace balancer

/-- The calls that change the connection counter of a backend. -/
inductive ConnOp where
  | inc
  | dec
  | reset
deriving DecidableEq, Repr

/-- The backend after one call. -/
def ConnOp.apply (b : Backend) : ConnOp → Backend
  | .inc => b.IncConnections
  | .dec => b.DecConnections
  | .reset => b.ResetConnections

/-- The backend after a sequence of calls, oldest first. -/
def runConn (b : Backend) (ops : List ConnOp) : Backend :=
  ops.foldl ConnOp.apply b

end balancer

/-! ## Package api -/

namespace api

open storage ratelimiter

/-- The record `ClientLimitRequest`. -/
structure ClientLimitRequest where
  ClientID : String
  Capacity : Int
  RefillRate : Int
deriving DecidableEq, Repr

/-- The value a handler writes as the body of its response: the text of
`http.Error`, or the value handed to the JSON encoder. -/
inductive Payload where
  | text (msg : String)
  | limit (l : storage.ClientLimit)
  | limits (ls : List storage.ClientLimit)
  | deleted (clientID : String)
deriving DecidableEq, Repr

/-- The status code and body a handler of the control plane writes. -/
structure Reply where
  status : Nat
  payload : Payload
deriving DecidableEq, Repr

/-- The record `ClientHandler`: the repository and the limiter it works on.
The limiter reads the same repository, so after a write its `repo` is the view
of the new table. -/
structure ClientHandler where
  Repo : SQLiteClientRepo
  Limiter : RateLimiter

/-- The handler `ClientHandler.Create`.  `body` is what decoding the request
body as JSON gives (`none` for a decoding error), `fault` the I/O error of the
driver during `Repo.Create`, if any. -/
def ClientHandler.Create (h : ClientHandler) (body : Option ClientLimitRequest)
    (fault : Option String) (now : Int) : Reply × ClientHandler :=
  match body with
  | none => ({ status := 400, payload := .text "invalid JSON" }, h)
  | some req =>
    if req.ClientID = "" ∨ req.Capacity ≤ 0 ∨ req.RefillRate ≤ 0 then
      ({ status := 400, payload := .text "invalid client data" }, h)
    else
      let limit : storage.ClientLimit :=
        { ClientID := req.ClientID, Capacity := req.Capacity, RefillRate := req.RefillRate }
      match h.Repo.Create fault limit with
      | (some err, _) => ({ status := 409, payload := .text err.Error }, h)
      | (none, repo) =>
        let limiter := ({ h.Limiter with repo := repo.view }).SetClientLimit req.ClientID
          { Capacity := req.Capacity, RefillRate := req.RefillRate } now
        ({ status := 201, payload := .limit limit }, { Repo := repo, Limiter := limiter })

/-- The handler `ClientHandler.List`. -/
def ClientHandler.List (h : ClientHandler) (fault : Option String) : Reply × ClientHandler :=
  match h.Repo.List fault with
  | .error _ => ({ status := 500, payload := .text "internal error" }, h)
  | .ok clientLimits => ({ status := 200, payload := .limits clientLimits }, h)

/-- The handler `ClientHandler.Get`; `clientID` is the path variable `id`. -/
def ClientHandler.Get (h : ClientHandler) (clientID : String) (fault : Option String) :
    Reply × ClientHandler :=
  match h.Repo.Get fault clientID with
  | .error _ => ({ status := 404, payload := .text "client not found" }, h)
  | .ok limit => ({ status := 200, payload := .limit limit }, h)

/-- The handler `ClientHandler.Update`. -/
def ClientHandler.Update (h : ClientHandler) (clientID : String)
    (body : Option ClientLimitRequest) (fault : Option String) (now : Int) :
    Reply × ClientHandler :=
  match body with
  | none => ({ status := 400, payload := .text "invalid JSON or id mismatch" }, h)
  | some req =>
    if req.ClientID ≠ clientID then
      ({ status := 400, payload := .text "invalid JSON or id mismatch" }, h)
    else if req.Capacity ≤ 0 ∨ req.RefillRate ≤ 0 then
      ({ status := 400, payload := .text "invalid capacity or rate_per_sec" }, h)
    else
      let newLimit : storage.ClientLimit :=
        { ClientID := req.ClientID, Capacity := req.Capacity, RefillRate := req.RefillRate }
      match h.Repo.Update fault newLimit with
      | (some _, _) => ({ status := 404, payload := .text "client not found" }, h)
      | (none, repo) =>
        let limiter := ({ h.Limiter with repo := repo.view }).SetClientLimit clientID
          { Capacity := req.Capacity, RefillRate := req.RefillRate } now
        ({ status := 200, payload := .limit newLimit }, { Repo := repo, Limiter := limiter })

/-- The handler `ClientHandler.Delete`; `faultGet` and `faultDelete` are the I/O
errors of the driver during `Repo.Get` and `Repo.Delete`, if any. -/
def ClientHandler.Delete (h : ClientHandler) (clientID : String)
    (faultGet faultDelete : Option String) : Reply × ClientHandler :=
  match h.Repo.Get faultGet clientID with
  | .error .notFound => ({ status := 404, payload := .text "client not found" }, h)
  | .error _ => ({ status := 500, payload := .text "internal server error" }, h)
  | .ok _ =>
    match h.Repo.Delete faultDelete clientID with
    | (some _, _) => ({ status := 500, payload := .text "failed to delete client" }, h)
    | (none, repo) =>
      let limiter := ({ h.Limiter with repo := repo.view }).RemoveClient clientID
      ({ status := 200, payload := .deleted clientID }, { Repo := repo, Limiter := limiter })

end api

/-! # Theorems -/

/-! ## Machine integers and time -/

theorem wrapInt_of_range (x : Int) (h1 : minInt ≤ x) (h2 : x ≤ maxInt) : wrapInt x = x := by
  unfold wrapInt
  unfold minInt at h1
  unfold maxInt at h2
  omega

theorem timeSub_le_maxInt (t u : Int) : timeSub t u ≤ maxInt := by
  unfold timeSub
  split_ifs with h1 h2
  · unfold minInt maxInt; omega
  · exact le_refl _
  · exact not_lt.mp h2

theorem roundHalfEven_upper (n d : Nat) : 2 * (d * roundHalfEven n d) ≤ 2 * n + d := by
  have hdm := Nat.div_add_mod n d
  unfold roundHalfEven
  simp only
  split_ifs with h1 h2 h3
  · omega
  · rw [Nat.mul_add]; omega
  · omega
  · rw [Nat.mul_add]; omega

theorem roundHalfEven_lower (n d : Nat) (hd : 0 < d) :
    2 * n ≤ 2 * (d * roundHalfEven n d) + d := by
  have hdm := Nat.div_add_mod n d
  have hlt := Nat.mod_lt n hd
  unfold roundHalfEven
  simp only
  split_ifs with h1 h2 h3
  · omega
  · rw [Nat.mul_add]; omega
  · omega
  · rw [Nat.mul_add]; omega

theorem roundHalfEven_exact (n : Nat) : roundHalfEven n 1 = n := by
  have h : n % 1 = 0 := Nat.mod_one n
  unfold roundHalfEven
  simp only [h, Nat.div_one]
  simp

theorem log2Floor_le (fuel : Nat) : ∀ n k : Nat, n < 2 ^ (k + 1) → log2Floor fuel n ≤ k := by
  induction fuel with
  | zero => intro n k _; exact Nat.zero_le _
  | succ fuel ih =>
    intro n k hn
    unfold log2Floor
    split_ifs with h2
    · exact Nat.zero_le _
    · cases k with
      | zero => omega
      | succ k =>
        have : n / 2 < 2 ^ (k + 1) := by
          rw [Nat.div_lt_iff_lt_mul (by norm_num)]
          rw [pow_succ] at hn
          exact hn
        have := ih (n / 2) k this
        omega

theorem round_core (P M1 sec Q M2 : Nat) (hP : 0 < P) (hM : M1 ≤ P) (hQ : 0 < Q)
    (hU : 2 * (P * M2) ≤ 2 * ((sec * P + M1) * Q) + P)
    (hL : 2 * ((sec * P + M1) * Q) ≤ 2 * (P * M2) + P) :
    sec * Q ≤ M2 ∧ M2 < (sec + 2) * Q ∧ ((sec + 1) * Q ≤ M2 → 2 * ((P - M1) * Q) ≤ P) := by
  obtain ⟨D, rfl⟩ : ∃ D, P = M1 + D := ⟨P - M1, by omega⟩
  have e1 : (sec * (M1 + D) + M1) * Q = (M1 + D) * (sec * Q) + M1 * Q := by ring
  rw [e1] at hU hL
  have hMQ : M1 * Q ≤ (M1 + D) * Q := Nat.mul_le_mul_right Q (by omega)
  have hPQ : (M1 + D) * 1 ≤ (M1 + D) * Q := Nat.mul_le_mul_left _ hQ
  have e2 : (M1 + D) * Q = M1 * Q + D * Q := by ring
  refine ⟨?_, ?_, ?_⟩
  · by_contra hc
    have h1 : M2 + 1 ≤ sec * Q := by omega
    have h2 := Nat.mul_le_mul_left (M1 + D) h1
    rw [Nat.mul_add] at h2
    omega
  · by_contra hc
    have h1 : (sec + 2) * Q ≤ M2 := by omega
    have h2 := Nat.mul_le_mul_left (M1 + D) h1
    have e3 : (M1 + D) * ((sec + 2) * Q) = (M1 + D) * (sec * Q) + 2 * ((M1 + D) * Q) := by ring
    rw [e3] at h2
    omega
  · intro h1
    have h2 := Nat.mul_le_mul_left (M1 + D) h1
    have e3 : (M1 + D) * ((sec + 1) * Q) = (M1 + D) * (sec * Q) + (M1 + D) * Q := by ring
    rw [e3] at h2
    have e4 : M1 + D - M1 = D := by omega
    rw [e4]
    omega

theorem toFloat64_frac (n : Nat) (h0 : 0 < n) (h1 : n < 1000000000) :
    2 ^ 53 ≤ 2 ^ (toFloat64 n 1000000000).2 ∧
      2000000000 * (toFloat64 n 1000000000).1
        ≤ 2 * (n * 2 ^ (toFloat64 n 1000000000).2) + 1000000000 ∧
      2 * (n * 2 ^ (toFloat64 n 1000000000).2)
        ≤ 2000000000 * (toFloat64 n 1000000000).1 + 1000000000 := by
  have hn : n ≠ 0 := by omega
  have hd : ¬ (1000000000 ≤ n) := by omega
  simp only [toFloat64, hn, hd, if_false]
  refine ⟨Nat.pow_le_pow_right (by norm_num) (by omega), ?_, ?_⟩
  · have := roundHalfEven_upper (n * 2 ^ (52 + (log2Floor 64 ((1000000000 - 1) / n) + 1))) 1000000000
    omega
  · have := roundHalfEven_lower (n * 2 ^ (52 + (log2Floor 64 ((1000000000 - 1) / n) + 1))) 1000000000
      (by norm_num)
    omega

theorem toFloat64_sum (sec P M : Nat) (hP : 0 < P) (hM : M < P) (hne : sec * P + M ≠ 0) :
    ∃ s : Nat, toFloat64 (sec * P + M) P = (roundHalfEven ((sec * P + M) * 2 ^ s) P, s) ∧
      (sec = 0 → 53 ≤ s) ∧ (sec ≠ 0 → s = 52 - log2Floor 64 sec) := by
  simp only [toFloat64, hne, if_false]
  refine ⟨_, rfl, ?_, ?_⟩
  · intro h0
    subst h0
    have : ¬ (P ≤ 0 * P + M) := by omega
    simp only [this, if_false]
    omega
  · intro h0
    have h1 : P ≤ sec * P + M := by
      have : 1 * P ≤ sec * P := Nat.mul_le_mul_right P (by omega)
      omega
    have h2 : (sec * P + M) / P = sec := by
      rw [Nat.add_comm, Nat.add_mul_div_right _ _ hP, Nat.div_eq_of_lt hM]
      omega
    simp only [h1, if_true, h2]

theorem log2Floor_maxSeconds : log2Floor 64 9223372036 = 33 := by decide

theorem durationSeconds_trunc (d : Nat) :
    d / 1000000000 ≤ (durationSeconds d).1 / 2 ^ (durationSeconds d).2 ∧
      (durationSeconds d).1 / 2 ^ (durationSeconds d).2 ≤ d / 1000000000 + 1 ∧
      (d / 1000000000 < 2 ^ 24 →
        (durationSeconds d).1 / 2 ^ (durationSeconds d).2 = d / 1000000000) ∧
      (d / 1000000000 = 9223372036 → d % 1000000000 ≤ 854775807 →
        (durationSeconds d).1 / 2 ^ (durationSeconds d).2 = d / 1000000000) := by
  have key : ((durationSeconds d).1 / 2 ^ (durationSeconds d).2 = d / 1000000000) ∨
      (d % 1000000000 ≠ 0 ∧
        d / 1000000000 ≤ (durationSeconds d).1 / 2 ^ (durationSeconds d).2 ∧
        (durationSeconds d).1 / 2 ^ (durationSeconds d).2 ≤ d / 1000000000 + 1 ∧
        (d / 1000000000 < 2 ^ 24 →
          (durationSeconds d).1 / 2 ^ (durationSeconds d).2 = d / 1000000000) ∧
        (d / 1000000000 = 9223372036 → d % 1000000000 ≤ 854775807 →
          (durationSeconds d).1 / 2 ^ (durationSeconds d).2 = d / 1000000000)) := by
    unfold durationSeconds
    simp only
    generalize d / 1000000000 = sec
    have hlt : d % 1000000000 < 1000000000 := Nat.mod_lt _ (by norm_num)
    revert hlt
    generalize d % 1000000000 = nsec
    intro hlt
    by_cases hn : nsec = 0
    · left
      subst hn
      have hq : toFloat64 0 1000000000 = (0, 0) := by simp [toFloat64]
      rw [hq]
      simp only [pow_zero, Nat.mul_one, Nat.add_zero]
      by_cases hs : sec = 0
      · subst hs
        simp [toFloat64]
      · have h1 : (1 : Nat) ≤ sec := by omega
        simp only [toFloat64, hs, if_false, h1, if_true, roundHalfEven_exact]
        exact Nat.mul_div_cancel _ (Nat.pos_pow_of_pos _ (by norm_num))
    · right
      refine ⟨hn, ?_⟩
      obtain ⟨hP53, hMu, hMl⟩ := toFloat64_frac nsec (by omega) hlt
      generalize (toFloat64 nsec 1000000000).1 = M1 at *
      generalize (2 : Nat) ^ (toFloat64 nsec 1000000000).2 = P at *
      have hP : 0 < P := by omega
      have hnP1 : 1 * P ≤ nsec * P := Nat.mul_le_mul_right P (by omega)
      have hnP2 : nsec * P ≤ 999999999 * P := Nat.mul_le_mul_right P (by omega)
      have hM1 : M1 < P := by omega
      have hM0 : 1 ≤ M1 := by omega
      obtain ⟨s, hs, hs0, hs1⟩ := toFloat64_sum sec P M1 hP hM1 (by omega)
      rw [hs]
      simp only
      have hQ : 0 < 2 ^ s := Nat.pos_pow_of_pos _ (by norm_num)
      obtain ⟨hL, hU, hK⟩ := round_core P M1 sec (2 ^ s)
        (roundHalfEven ((sec * P + M1) * 2 ^ s) P) hP (le_of_lt hM1) hQ
        (roundHalfEven_upper _ _) (roundHalfEven_lower _ _ hP)
      generalize roundHalfEven ((sec * P + M1) * 2 ^ s) P = M2 at *
      have hge : sec ≤ M2 / 2 ^ s := (Nat.le_div_iff_mul_le hQ).2 hL
      have hle : M2 / 2 ^ s < sec + 2 := (Nat.div_lt_iff_lt_mul hQ).2 hU
      have hex : M2 < (sec + 1) * 2 ^ s → M2 / 2 ^ s = sec := by
        intro h
        have : M2 / 2 ^ s < sec + 1 := (Nat.div_lt_iff_lt_mul hQ).2 h
        omega
      refine ⟨hge, by omega, ?_, ?_⟩
      · intro hsec
        apply hex
        by_contra hc
        have hk := hK (by omega)
        have hs29 : 29 ≤ s := by
          by_cases h0 : sec = 0
          · have := hs0 h0
            omega
          · have := hs1 h0
            have := log2Floor_le 64 sec 23 (by simpa using hsec)
            omega
        have hQ29 : 2 ^ 29 ≤ 2 ^ s := Nat.pow_le_pow_right (by norm_num) hs29
        have h3 : (P - M1) * 2 ^ 29 ≤ (P - M1) * 2 ^ s := Nat.mul_le_mul_left _ hQ29
        generalize (P - M1) * 2 ^ s = X at *
        have hD : P - M1 + M1 = P := by omega
        generalize P - M1 = D at *
        norm_num at h3 hP53
        omega
      · intro hsec hns
        apply hex
        by_contra hc
        have hk := hK (by omega)
        have hs19 : s = 19 := by
          have := hs1 (by omega)
          rw [hsec, log2Floor_maxSeconds] at this
          omega
        subst hs19
        have hnP3 : nsec * P ≤ 854775807 * P := Nat.mul_le_mul_right P hns
        have hD : P - M1 + M1 = P := by omega
        generalize P - M1 = D at *
        norm_num at hk hP53
        omega
  rcases key with h | ⟨_, h1, h2, h3, h4⟩
  · rw [h]
    exact ⟨le_refl _, by omega, fun _ => rfl, fun _ _ => rfl⟩
  · exact ⟨h1, h2, h3, h4⟩

theorem wholeSeconds_neg (d : Int) (h : d < 0) : wholeSeconds d ≤ 0 := by
  unfold wholeSeconds
  simp only [h, if_true]
  exact neg_nonpos.mpr (Int.ofNat_nonneg _)

theorem wholeSeconds_bounds (d : Int) (h : 0 ≤ d) :
    d / 1000000000 ≤ wholeSeconds d ∧ wholeSeconds d ≤ d / 1000000000 + 1 ∧
      (d < 2 ^ 24 * 1000000000 → wholeSeconds d = d / 1000000000) ∧
      (d ≤ 2 ^ 63 - 1 → wholeSeconds d ≤ 9223372036) := by
  obtain ⟨n, rfl⟩ := Int.eq_ofNat_of_zero_le h
  obtain ⟨h1, h2, h3, h4⟩ := durationSeconds_trunc n
  have hn : ¬ ((n : Int) < 0) := by omega
  unfold wholeSeconds
  simp only [hn, if_false, Int.natAbs_ofNat]
  generalize (durationSeconds n).1 / 2 ^ (durationSeconds n).2 = T at *
  refine ⟨by omega, by omega, ?_, ?_⟩
  · intro hlt
    have : n / 1000000000 < 2 ^ 24 := by omega
    have := h3 this
    omega
  · intro hle
    by_cases hs : n / 1000000000 = 9223372036
    · have := h4 hs (by omega)
      omega
    · omega

theorem wholeSeconds_pos_iff (d : Int) : 0 < wholeSeconds d ↔ 1000000000 ≤ d := by
  by_cases h : 0 ≤ d
  · obtain ⟨h1, _, h3, _⟩ := wholeSeconds_bounds d h
    constructor
    · intro hp
      by_contra hc
      have := h3 (by omega)
      omega
    · intro hd
      omega
  · have := wholeSeconds_neg d (by omega)
    omega

namespace ratelimiter

theorem elapsed_le_maxElapsed (t u : Int) : wholeSeconds (timeSub t u) ≤ maxElapsed := by
  have h := timeSub_le_maxInt t u
  unfold maxInt at h
  unfold maxElapsed
  by_cases hd : 0 ≤ timeSub t u
  · exact (wholeSeconds_bounds _ hd).2.2.2 h
  · have := wholeSeconds_neg _ (not_le.mp hd)
    omega

theorem newTokenBucket_bounded (M R cap rate now : Int)
    (h : 0 ≤ cap ∧ cap ≤ M ∧ 0 ≤ rate ∧ rate ≤ R) :
    (newTokenBucket cap rate now).Bounded M R ∧
      (newTokenBucket cap rate now).tokens ≤ (newTokenBucket cap rate now).capacity := by
  obtain ⟨h1, h2, h3, h4⟩ := h
  exact ⟨⟨h1, h2, h3, h4, h1, h2⟩, le_refl _⟩

theorem consume_bounded (M R : Int) (b : tokenBucket) (h : b.Bounded M R) :
    b.consume.2.Bounded M R := by
  obtain ⟨h1, h2, h3, h4, h5, h6⟩ := h
  unfold tokenBucket.consume
  split_ifs with ht
  · exact ⟨h1, h2, h3, h4, by simp only; omega, by simp only; omega⟩
  · exact ⟨h1, h2, h3, h4, h5, h6⟩

theorem consume_le_capacity (b : tokenBucket) (h : b.tokens ≤ b.capacity) :
    b.consume.2.tokens ≤ b.consume.2.capacity := by
  unfold tokenBucket.consume
  split_ifs with ht
  · simp only; omega
  · exact h

theorem refill_sum_exact (M R : Int) (hMR : M + maxElapsed * R ≤ maxInt) (b : tokenBucket)
    (h : b.Bounded M R) (e : Int) (he0 : 0 < e) (he : e ≤ maxElapsed) :
    wrapInt (b.tokens + wrapInt (e * b.refillRate)) = b.tokens + e * b.refillRate ∧
      0 ≤ e * b.refillRate := by
  obtain ⟨h1, h2, h3, h4, h5, h6⟩ := h
  have hp0 : 0 ≤ e * b.refillRate := mul_nonneg (le_of_lt he0) h3
  have hp1 : e * b.refillRate ≤ maxElapsed * R :=
    mul_le_mul he h4 h3 (by unfold maxElapsed; omega)
  have hmin : minInt ≤ 0 := by unfold minInt; omega
  rw [wrapInt_of_range (e * b.refillRate) (by omega) (by omega)]
  rw [wrapInt_of_range _ (by omega) (by omega)]
  exact ⟨rfl, hp0⟩

theorem refill_bounded (M R : Int) (hMR : M + maxElapsed * R ≤ maxInt) (b : tokenBucket)
    (now : Int) (h : b.Bounded M R) :
    (b.refill now).Bounded M R ∧
      (b.tokens ≤ b.capacity → (b.refill now).tokens ≤ (b.refill now).capacity) := by
  have hb := h
  obtain ⟨h1, h2, h3, h4, h5, h6⟩ := h
  unfold tokenBucket.refill
  simp only
  split_ifs with he ht
  · exact ⟨hb, fun x => x⟩
  · exact ⟨⟨h1, h2, h3, h4, h1, h2⟩, fun _ => le_refl _⟩
  · have hs := refill_sum_exact M R hMR b hb _ (not_le.mp he) (elapsed_le_maxElapsed _ _)
    rw [hs.1] at ht ⊢
    have hp := hs.2
    exact ⟨⟨h1, h2, h3, h4, by simp only; omega, by simp only; omega⟩, fun _ => not_lt.mp ht⟩

theorem setBucket_same (m : String → Option tokenBucket) (k : String) (b : tokenBucket) :
    setBucket m k b k = some b := by
  simp [setBucket]

theorem setBucket_other (m : String → Option tokenBucket) (k k2 : String) (b : tokenBucket)
    (h : k2 ≠ k) : setBucket m k b k2 = m k2 := by
  simp [setBucket, h]

theorem setBucket_twice (m : String → Option tokenBucket) (k : String) (b b2 : tokenBucket) :
    setBucket (setBucket m k b) k b2 = setBucket m k b2 := by
  funext k2
  unfold setBucket
  split_ifs <;> rfl

theorem AllowRequest_result (rl : RateLimiter) (c : String) (now : Int) :
    (rl.AllowRequest c now).1 = (rl.bucketFor c now).consume.1 := by
  unfold RateLimiter.AllowRequest RateLimiter.bucketFor
  cases hb : rl.buckets c <;> simp

theorem AllowRequest_buckets (rl : RateLimiter) (c : String) (now : Int) :
    (rl.AllowRequest c now).2.buckets = setBucket rl.buckets c (rl.bucketFor c now).consume.2 := by
  unfold RateLimiter.AllowRequest RateLimiter.bucketFor
  cases hb : rl.buckets c with
  | some b => simp
  | none => simp [RateLimiter.initBucketForClient, setBucket_twice]

theorem AllowRequest_limits (rl : RateLimiter) (c : String) (now : Int) :
    (rl.AllowRequest c now).2.repo = rl.repo ∧
      (rl.AllowRequest c now).2.defaultCap = rl.defaultCap ∧
      (rl.AllowRequest c now).2.defaultRefill = rl.defaultRefill := by
  unfold RateLimiter.AllowRequest
  cases hb : rl.buckets c <;> simp [RateLimiter.initBucketForClient]

theorem SetClientLimit_buckets (rl : RateLimiter) (c : String) (l : ClientLimit) (now : Int) :
    (rl.SetClientLimit c l now).buckets = setBucket rl.buckets c (rl.bucketAfterSet c l now) := by
  unfold RateLimiter.SetClientLimit RateLimiter.bucketAfterSet
  cases hb : rl.buckets c <;> rfl

theorem SetClientLimit_limits (rl : RateLimiter) (c : String) (l : ClientLimit) (now : Int) :
    (rl.SetClientLimit c l now).repo = rl.repo ∧
      (rl.SetClientLimit c l now).defaultCap = rl.defaultCap ∧
      (rl.SetClientLimit c l now).defaultRefill = rl.defaultRefill := by
  unfold RateLimiter.SetClientLimit
  cases hb : rl.buckets c <;> simp

theorem initBucket_bounded (M R : Int) (rl : RateLimiter) (c : String) (now : Int)
    (hl : rl.LimitsBounded M R) :
    (rl.initBucketForClient c now).1.Bounded M R ∧
      (rl.initBucketForClient c now).1.tokens ≤ (rl.initBucketForClient c now).1.capacity := by
  unfold RateLimiter.initBucketForClient
  simp only
  cases hr : rl.repo c with
  | ok l => exact newTokenBucket_bounded M R _ _ now (hl.2 c l hr)
  | error e => exact newTokenBucket_bounded M R _ _ now hl.1

theorem bucketFor_bounded (M R : Int) (rl : RateLimiter) (c : String) (now : Int)
    (hl : rl.LimitsBounded M R) (hb : rl.BucketsBounded M R) :
    (rl.bucketFor c now).Bounded M R := by
  unfold RateLimiter.bucketFor
  cases hc : rl.buckets c with
  | some b0 => exact hb c b0 hc
  | none => exact (initBucket_bounded M R rl c now hl).1

theorem bucketFor_le_capacity (M R : Int) (rl : RateLimiter) (c : String) (now : Int)
    (hl : rl.LimitsBounded M R) (ht : rl.TokensWithinCapacity) :
    (rl.bucketFor c now).tokens ≤ (rl.bucketFor c now).capacity := by
  unfold RateLimiter.bucketFor
  cases hc : rl.buckets c with
  | some b0 => exact ht c b0 hc
  | none => exact (initBucket_bounded M R rl c now hl).2

theorem step_limits (M R : Int) (rl : RateLimiter) (op : Op) (hl : rl.LimitsBounded M R)
    (hop : op.LimitsBounded M R) : (step rl op).LimitsBounded M R := by
  unfold RateLimiter.LimitsBounded at hl ⊢
  cases op with
  | allow c now =>
    obtain ⟨h1, h2, h3⟩ := AllowRequest_limits rl c now
    simp only [step, h1, h2, h3]
    exact hl
  | setLimit c l now =>
    obtain ⟨h1, h2, h3⟩ := SetClientLimit_limits rl c l now
    simp only [step, h1, h2, h3]
    exact hl
  | remove c => exact hl
  | tick clock => exact hl
  | repoWrite get => exact ⟨hl.1, hop⟩

theorem step_bounded (M R : Int) (hMR : M + maxElapsed * R ≤ maxInt) (rl : RateLimiter)
    (op : Op) (hl : rl.LimitsBounded M R) (hop : op.LimitsBounded M R)
    (hb : rl.BucketsBounded M R) : (step rl op).BucketsBounded M R := by
  intro k b hk
  cases op with
  | allow c now =>
    simp only [step, AllowRequest_buckets] at hk
    by_cases hkc : k = c
    · subst hkc
      rw [setBucket_same] at hk
      cases hk
      exact consume_bounded M R _ (bucketFor_bounded M R rl k now hl hb)
    · rw [setBucket_other _ _ _ _ hkc] at hk
      exact hb k b hk
  | setLimit c l now =>
    simp only [step, SetClientLimit_buckets] at hk
    obtain ⟨l1, l2, l3, l4⟩ := hop
    by_cases hkc : k = c
    · subst hkc
      rw [setBucket_same] at hk
      cases hk
      unfold RateLimiter.bucketAfterSet
      cases hc : rl.buckets k with
      | some b0 =>
        obtain ⟨-, -, -, -, h5, h6⟩ := hb k b0 hc
        exact ⟨l1, l2, l3, l4, h5, h6⟩
      | none => exact (newTokenBucket_bounded M R _ _ now ⟨l1, l2, l3, l4⟩).1
    · rw [setBucket_other _ _ _ _ hkc] at hk
      exact hb k b hk
  | remove c =>
    simp only [step, RateLimiter.RemoveClient, deleteBucket] at hk
    split_ifs at hk
    exact hb k b hk
  | tick clock =>
    simp only [step, RateLimiter.refillTokens] at hk
    cases hc : rl.buckets k with
    | none => rw [hc] at hk; cases hk
    | some b0 =>
      rw [hc] at hk
      cases hk
      exact (refill_bounded M R hMR b0 _ (hb k b0 hc)).1
  | repoWrite get => exact hb k b hk

theorem step_within (M R : Int) (hMR : M + maxElapsed * R ≤ maxInt) (rl : RateLimiter)
    (op : Op) (ops : List Op) (hl : rl.LimitsBounded M R) (hb : rl.BucketsBounded M R)
    (ht : rl.TokensWithinCapacity) (hn : NoLowering rl (op :: ops)) :
    (step rl op).TokensWithinCapacity := by
  intro k b hk
  cases op with
  | allow c now =>
    simp only [step, AllowRequest_buckets] at hk
    by_cases hkc : k = c
    · subst hkc
      rw [setBucket_same] at hk
      cases hk
      exact consume_le_capacity _ (bucketFor_le_capacity M R rl k now hl ht)
    · rw [setBucket_other _ _ _ _ hkc] at hk
      exact ht k b hk
  | setLimit c l now =>
    simp only [step, SetClientLimit_buckets] at hk
    by_cases hkc : k = c
    · subst hkc
      rw [setBucket_same] at hk
      cases hk
      unfold RateLimiter.bucketAfterSet
      cases hc : rl.buckets k with
      | some b0 => exact hn.1 b0 hc
      | none => exact le_refl _
    · rw [setBucket_other _ _ _ _ hkc] at hk
      exact ht k b hk
  | remove c =>
    simp only [step, RateLimiter.RemoveClient, deleteBucket] at hk
    split_ifs at hk
    exact ht k b hk
  | tick clock =>
    simp only [step, RateLimiter.refillTokens] at hk
    cases hc : rl.buckets k with
    | none => rw [hc] at hk; cases hk
    | some b0 =>
      rw [hc] at hk
      cases hk
      exact (refill_bounded M R hMR b0 _ (hb k b0 hc)).2 (ht k b0 hc)
  | repoWrite get => exact ht k b hk

theorem NoLowering_tail (rl : RateLimiter) (op : Op) (ops : List Op)
    (hn : NoLowering rl (op :: ops)) : NoLowering (step rl op) ops := by
  cases op with
  | allow c now => exact hn
  | setLimit c l now => exact hn.2
  | remove c => exact hn
  | tick clock => exact hn
  | repoWrite get => exact hn

theorem run_bounded (M R : Int) (hMR : M + maxElapsed * R ≤ maxInt) (ops : List Op) :
    ∀ rl : RateLimiter, rl.LimitsBounded M R → (∀ op ∈ ops, op.LimitsBounded M R) →
      rl.BucketsBounded M R → (run rl ops).BucketsBounded M R := by
  induction ops with
  | nil => intro rl _ _ hb; exact hb
  | cons op ops ih =>
    intro rl hl hops hb
    exact ih (step rl op) (step_limits M R rl op hl (hops op (List.mem_cons_self _ _)))
      (fun o ho => hops o (List.mem_cons_of_mem _ ho))
      (step_bounded M R hMR rl op hl (hops op (List.mem_cons_self _ _)) hb)

theorem run_within (M R : Int) (hMR : M + maxElapsed * R ≤ maxInt) (ops : List Op) :
    ∀ rl : RateLimiter, rl.LimitsBounded M R → (∀ op ∈ ops, op.LimitsBounded M R) →
      rl.BucketsBounded M R → rl.TokensWithinCapacity → NoLowering rl ops →
      (run rl ops).TokensWithinCapacity := by
  induction ops with
  | nil => intro rl _ _ _ ht _; exact ht
  | cons op ops ih =>
    intro rl hl hops hb ht hn
    exact ih (step rl op) (step_limits M R rl op hl (hops op (List.mem_cons_self _ _)))
      (fun o ho => hops o (List.mem_cons_of_mem _ ho))
      (step_bounded M R hMR rl op hl (hops op (List.mem_cons_self _ _)) hb)
      (step_within M R hMR rl op ops hl hb ht hn)
      (NoLowering_tail rl op ops hn)

/-- C1 (as stated, refuted): `0 ≤ tokens ≤ capacity` does not hold after every
operation.  `SetClientLimit` on an existing bucket keeps the tokens, so lowering
the capacity leaves `tokens = 4 > 2 = capacity`; a bucket created from a
negative capacity holds `tokens = -1`; and a refill whose product
`elapsed * refillRate` leaves the 64-bit range makes the tokens negative. -/
theorem tokens_within_capacity_refuted :
    (∃ b, (run (NewRateLimiter 5 1 (fun _ => .error .notFound))
        [.allow "c" 0, .setLimit "c" ⟨2, 1⟩ 0]).buckets "c" = some b ∧
        ¬ (0 ≤ b.tokens ∧ b.tokens ≤ b.capacity)) ∧
    (∃ b, (run (NewRateLimiter (-1) 1 (fun _ => .error .notFound))
        [.allow "c" 0]).buckets "c" = some b ∧
        ¬ (0 ≤ b.tokens ∧ b.tokens ≤ b.capacity)) ∧
    (∃ b, (run (NewRateLimiter 0 (2 ^ 62) (fun _ => .error .notFound))
        [.allow "c" 0, .tick (fun _ => 2 * Second)]).buckets "c" = some b ∧
        ¬ (0 ≤ b.tokens ∧ b.tokens ≤ b.capacity)) := by
  refine ⟨⟨⟨2, 1, 4, 0⟩, by decide, by decide⟩, ⟨⟨-1, 1, -1, 0⟩, by decide, by decide⟩,
    ⟨⟨0, 2 ^ 62, -(2 ^ 63), 2 * Second⟩, by decide, by decide⟩⟩

/-- C1 (amended): starting from `NewRateLimiter`, when every capacity the
limiter can be given (process default, repository, `SetClientLimit`) lies in
`[0, M]` and every refill rate in `[0, R]` with `M + 9223372036 * R` inside the
64-bit range, then after every sequence of `AllowRequest`, `SetClientLimit`,
`RemoveClient`, refill ticks and repository writes each bucket has
`0 ≤ tokens ≤ M`, and it has `tokens ≤ capacity` as long as no `SetClientLimit`
lowered the capacity of an existing bucket below the tokens it held. -/
theorem tokens_bounds_after_run (M R : Int) (hMR : M + maxElapsed * R ≤ maxInt)
    (cap refill : Int) (repo : String → Except storage.RepoError storage.ClientLimit)
    (ops : List Op) (hl : (NewRateLimiter cap refill repo).LimitsBounded M R)
    (hops : ∀ op ∈ ops, op.LimitsBounded M R) (c : String) (b : tokenBucket)
    (hb : (run (NewRateLimiter cap refill repo) ops).buckets c = some b) :
    0 ≤ b.tokens ∧ b.tokens ≤ M ∧
      (NoLowering (NewRateLimiter cap refill repo) ops → b.tokens ≤ b.capacity) := by
  have h0 : (NewRateLimiter cap refill repo).BucketsBounded M R := by
    intro k b0 hk
    cases hk
  have h1 : (NewRateLimiter cap refill repo).TokensWithinCapacity := by
    intro k b0 hk
    cases hk
  obtain ⟨-, -, -, -, h5, h6⟩ := run_bounded M R hMR ops _ hl hops h0 c b hb
  exact ⟨h5, h6, fun hn => run_within M R hMR ops _ hl hops h0 h1 hn c b hb⟩

/-- Witness of `tokens_bounds_after_run`: defaults `(5, 1)`, one request, a
tick three seconds later and a reconfiguration to `(7, 2)`. -/
theorem tokens_bounds_after_run_witness :
    ∃ b, (run (NewRateLimiter 5 1 (fun _ => .error .notFound))
        [.allow "c" 0, .tick (fun _ => 3 * Second), .setLimit "c" ⟨7, 2⟩ 0]).buckets "c" =
          some b ∧
      0 ≤ b.tokens ∧ b.tokens ≤ 10 ∧ b.tokens ≤ b.capacity :=
  have h := tokens_bounds_after_run 10 2 (by decide) 5 1 (fun _ => .error .notFound)
    [.allow "c" 0, .tick (fun _ => 3 * Second), .setLimit "c" ⟨7, 2⟩ 0]
    ⟨by decide, fun c l hc => by cases hc⟩
    (by
      intro op hop
      simp only [List.mem_cons, List.mem_singleton, List.not_mem_nil, or_false] at hop
      rcases hop with rfl | rfl | rfl
      · trivial
      · trivial
      · exact ⟨by decide, by decide, by decide, by decide⟩)
    "c" ⟨7, 2, 5, 3 * Second⟩ (by decide)
  ⟨⟨7, 2, 5, 3 * Second⟩, by decide, h.1, h.2.1, h.2.2 ⟨fun b hb => by
    have hb2 : b = ⟨5, 1, 5, 3 * Second⟩ := by
      have h2 : (step (step (NewRateLimiter 5 1 (fun _ => .error .notFound)) (.allow "c" 0))
          (.tick (fun _ => 3 * Second))).buckets "c" = some ⟨5, 1, 5, 3 * Second⟩ := by decide
      rw [h2] at hb
      exact (Option.some.inj hb).symm
    rw [hb2]
    decide, trivial⟩⟩

theorem bucketFor_of_some (rl : RateLimiter) (c : String) (now : Int) (b : tokenBucket)
    (hb : rl.buckets c = some b) : rl.bucketFor c now = b := by
  unfold RateLimiter.bucketFor
  rw [hb]
  rfl

theorem AllowRequest_bucket_same (rl : RateLimiter) (c : String) (now : Int) :
    (rl.AllowRequest c now).2.buckets c = some (rl.bucketFor c now).consume.2 := by
  rw [AllowRequest_buckets, setBucket_same]

theorem AllowRequest_bucket_other (rl : RateLimiter) (c d : String) (now : Int) (h : d ≠ c) :
    (rl.AllowRequest c now).2.buckets d = rl.buckets d := by
  rw [AllowRequest_buckets, setBucket_other _ _ _ _ h]

theorem consume_pos (b : tokenBucket) (h : 0 < b.tokens) :
    b.consume.1 = true ∧ b.consume.2.tokens = b.tokens - 1 := by
  unfold tokenBucket.consume
  rw [if_pos h]
  exact ⟨rfl, rfl⟩

theorem consume_nonpos (b : tokenBucket) (h : b.tokens ≤ 0) :
    b.consume.1 = false ∧ b.consume.2 = b := by
  unfold tokenBucket.consume
  rw [if_neg (not_lt.mpr h)]
  exact ⟨rfl, rfl⟩

theorem allowedCount_le_tokens (c : String) (ops : List Op) :
    ∀ (rl : RateLimiter) (b : tokenBucket), (∀ op ∈ ops, op.Quiet c) →
      rl.buckets c = some b → allowedCount c rl ops ≤ b.tokens.toNat := by
  induction ops with
  | nil => intro rl b _ _; exact Nat.zero_le _
  | cons op ops ih =>
    intro rl b hq hb
    have hq2 : ∀ o ∈ ops, o.Quiet c := fun o ho => hq o (List.mem_cons_of_mem _ ho)
    have hq1 : op.Quiet c := hq op (List.mem_cons_self _ _)
    cases op with
    | allow d now =>
      simp only [allowedCount]
      by_cases hdc : d = c
      · subst hdc
        have hbf := bucketFor_of_some rl d now b hb
        have hnext := AllowRequest_bucket_same rl d now
        rw [hbf] at hnext
        have hres := AllowRequest_result rl d now
        rw [hbf] at hres
        by_cases hpos : 0 < b.tokens
        · obtain ⟨h1, h2⟩ := consume_pos b hpos
          have := ih (step rl (.allow d now)) _ hq2 hnext
          rw [h2] at this
          rw [hres, h1]
          simp only [and_self, if_true]
          omega
        · obtain ⟨h1, h2⟩ := consume_nonpos b (not_lt.mp hpos)
          have := ih (step rl (.allow d now)) _ hq2 hnext
          rw [h2] at this
          rw [hres, h1]
          simp only [Bool.false_eq_true, and_false, if_false]
          omega
      · have hnext : (step rl (.allow d now)).buckets c = some b := by
          simp only [step]
          rw [AllowRequest_bucket_other rl d c now (Ne.symm hdc), hb]
        have := ih (step rl (.allow d now)) b hq2 hnext
        simp only [hdc, false_and, if_false]
        omega
    | setLimit d l now =>
      simp only [allowedCount]
      by_cases hdc : d = c
      · subst hdc
        have hnext : (step rl (.setLimit d l now)).buckets d =
            some { b with capacity := l.Capacity, refillRate := l.RefillRate } := by
          simp only [step, SetClientLimit_buckets, setBucket_same, RateLimiter.bucketAfterSet, hb]
        exact ih (step rl (.setLimit d l now))
          { b with capacity := l.Capacity, refillRate := l.RefillRate } hq2 hnext
      · have hnext : (step rl (.setLimit d l now)).buckets c = some b := by
          simp only [step, SetClientLimit_buckets]
          rw [setBucket_other _ _ _ _ (Ne.symm hdc), hb]
        exact ih _ _ hq2 hnext
    | remove d =>
      simp only [allowedCount]
      have hdc : d ≠ c := hq1
      have hnext : (step rl (.remove d)).buckets c = some b := by
        simp only [step, RateLimiter.RemoveClient, deleteBucket, if_neg (Ne.symm hdc), hb]
      exact ih _ _ hq2 hnext
    | tick clock => exact absurd hq1 (fun h => h)
    | repoWrite get =>
      simp only [allowedCount]
      exact ih (step rl (.repoWrite get)) b hq2 hb

/-- C2 (as stated, refuted): with no refill tick in between, `AllowRequest("c")`
returns `true` twice although the capacity of the client is `1` throughout:
`RemoveClient` drops the bucket and the next `AllowRequest` creates a full one. -/
theorem allowed_more_than_capacity :
    allowedCount "c" (NewRateLimiter 1 1 (fun _ => .error .notFound))
        [.allow "c" 0, .remove "c", .allow "c" 0] = 2 ∧
      ((step (NewRateLimiter 1 1 (fun _ => .error .notFound)) (.allow "c" 0)).buckets "c").map
        (fun b => b.capacity) = some 1 ∧
      ((run (NewRateLimiter 1 1 (fun _ => .error .notFound))
        [.allow "c" 0, .remove "c", .allow "c" 0]).buckets "c").map
        (fun b => b.capacity) = some 1 := by
  decide

/-- C2 (amended): over every sequence of `AllowRequest`, `SetClientLimit` and
`RemoveClient` calls (on any clients) and repository writes that holds no refill
tick and no `RemoveClient(c)`, the number of `AllowRequest(c)` calls that return `true` is at
most the capacity of the bucket of `c` at the start of the sequence, when that
bucket exists with `tokens ≤ capacity`; and when `c` has no bucket and the
sequence opens with the `AllowRequest(c)` that creates it, at most the capacity
it is created with. -/
theorem allowed_at_most_capacity (rl : RateLimiter) (c : String) (ops : List Op)
    (hq : ∀ op ∈ ops, op.Quiet c) :
    (∀ b, rl.buckets c = some b → b.tokens ≤ b.capacity →
        allowedCount c rl ops ≤ b.capacity.toNat) ∧
      (rl.buckets c = none → ∀ now,
        allowedCount c rl (.allow c now :: ops) ≤
          (rl.initBucketForClient c now).1.capacity.toNat) := by
  constructor
  · intro b hb hcap
    have := allowedCount_le_tokens c ops rl b hq hb
    omega
  · intro hnone now
    have hbf : rl.bucketFor c now = (rl.initBucketForClient c now).1 := by
      unfold RateLimiter.bucketFor
      rw [hnone]
      rfl
    have htok : (rl.initBucketForClient c now).1.tokens =
        (rl.initBucketForClient c now).1.capacity := by
      unfold RateLimiter.initBucketForClient
      simp only
      cases rl.repo c <;> rfl
    have hnext := AllowRequest_bucket_same rl c now
    have hres := AllowRequest_result rl c now
    rw [hbf] at hnext hres
    simp only [allowedCount, true_and]
    have hrest := allowedCount_le_tokens c ops (step rl (.allow c now)) _ hq hnext
    by_cases hpos : 0 < (rl.initBucketForClient c now).1.tokens
    · obtain ⟨h1, h2⟩ := consume_pos _ hpos
      rw [h2] at hrest
      rw [hres, h1]
      simp only [if_true]
      omega
    · obtain ⟨h1, h2⟩ := consume_nonpos _ (not_lt.mp hpos)
      rw [h2] at hrest
      rw [hres, h1]
      simp only [Bool.false_eq_true, if_false]
      omega

/-- Witness of `allowed_at_most_capacity`: a bucket of capacity 2 is created by
the first request, reconfigured, and asked two more times. -/
theorem allowed_at_most_capacity_witness :
    allowedCount "c" (NewRateLimiter 2 1 (fun _ => .error .notFound))
      [.allow "c" 0, .setLimit "c" ⟨9, 1⟩ 0, .allow "d" 0, .allow "c" 0, .allow "c" 0] ≤ 2 :=
  (allowed_at_most_capacity (NewRateLimiter 2 1 (fun _ => .error .notFound)) "c"
    [.setLimit "c" ⟨9, 1⟩ 0, .allow "d" 0, .allow "c" 0, .allow "c" 0]
    (by
      intro op hop
      simp only [List.mem_cons, List.mem_singleton, List.not_mem_nil, or_false] at hop
      rcases hop with rfl | rfl | rfl | rfl <;> trivial)).2 rfl 0

theorem allowSeq_exhausts (c : String) (n : Nat) :
    ∀ (rl : RateLimiter) (now : Int) (rest : List Int),
      (rl.bucketFor c now).tokens = n → rest.length = n →
      (allowSeq rl c (now :: rest)).1 = List.replicate n true ++ [false] := by
  induction n with
  | zero =>
    intro rl now rest ht hlen
    have hrest : rest = [] := List.length_eq_zero.mp hlen
    subst hrest
    obtain ⟨h1, -⟩ := consume_nonpos (rl.bucketFor c now) (by rw [ht]; exact le_refl _)
    simp only [allowSeq, AllowRequest_result, h1, List.replicate_zero, List.nil_append]
  | succ n ih =>
    intro rl now rest ht hlen
    cases rest with
    | nil => cases hlen
    | cons now2 rest2 =>
      obtain ⟨h1, h2⟩ := consume_pos (rl.bucketFor c now) (by rw [ht]; push_cast; omega)
      have hnext : ((rl.AllowRequest c now).2.bucketFor c now2).tokens = n := by
        rw [bucketFor_of_some _ c now2 _ (AllowRequest_bucket_same rl c now), h2, ht]
        push_cast
        omega
      have hrec := ih (rl.AllowRequest c now).2 now2 rest2 hnext (by simpa using hlen)
      rw [allowSeq, hrec, AllowRequest_result, h1]
      rfl

/-- C3: when `c` has no bucket and `initBucketForClient` gives it capacity
`C ≥ 0` (from the repository or the process defaults), then of `C + 1` successive
`AllowRequest(c)` calls with nothing in between, the first `C` return `true` and
the last returns `false`. -/
theorem first_C_allowed_then_denied (rl : RateLimiter) (c : String) (C : Int) (now : Int)
    (rest : List Int) (hnone : rl.buckets c = none)
    (hC : (rl.initBucketForClient c now).1.capacity = C) (h0 : 0 ≤ C)
    (hlen : rest.length = C.toNat) :
    (allowSeq rl c (now :: rest)).1 = List.replicate C.toNat true ++ [false] := by
  apply allowSeq_exhausts c C.toNat rl now rest _ hlen
  have hbf : rl.bucketFor c now = (rl.initBucketForClient c now).1 := by
    unfold RateLimiter.bucketFor
    rw [hnone]
    rfl
  have htok : (rl.initBucketForClient c now).1.tokens =
      (rl.initBucketForClient c now).1.capacity := by
    unfold RateLimiter.initBucketForClient
    simp only
    cases rl.repo c <;> rfl
  rw [hbf, htok, hC]
  omega

/-- Witness of `first_C_allowed_then_denied`: the limits of
`TestRateLimiter_BasicLimit`, capacity 5 and refill rate 1. -/
theorem first_C_allowed_then_denied_witness :
    (allowSeq (NewRateLimiter 5 1 (fun _ => .error .notFound)) "client1"
      [0, 1, 2, 3, 4, 5]).1 = [true, true, true, true, true, false] :=
  first_C_allowed_then_denied (NewRateLimiter 5 1 (fun _ => .error .notFound)) "client1" 5 0
    [1, 2, 3, 4, 5] rfl rfl (by decide) rfl

theorem refill_within_first_second (b : tokenBucket) (now : Int)
    (h0 : b.lastRefilled ≤ now) (h1 : now - b.lastRefilled < Second) : b.refill now = b := by
  have hsub : timeSub now b.lastRefilled = now - b.lastRefilled := by
    unfold timeSub minInt maxInt
    unfold Second at h1
    rw [if_neg (by omega), if_neg (by omega)]
  have hel : wholeSeconds (timeSub now b.lastRefilled) ≤ 0 := by
    rw [hsub]
    unfold Second at h1
    have := (wholeSeconds_pos_iff (now - b.lastRefilled)).1
    by_contra hc
    have := this (not_le.mp hc)
    omega
  unfold tokenBucket.refill
  simp only [hel, if_true]

theorem refill_reached_when_aligned :
    (((allowSeq (NewRateLimiter 5 1 (fun _ => .error .notFound)) "client1"
        [0, 0, 0, 0, 0, 0]).2.refillTokens
          (fun _ => 1000000000)).AllowRequest "client1" 1200000000).1 = true := by
  decide

/-- C4 (the code at the failing input): the limiter of
`TestRateLimiter_BasicLimit` is built at time 0, so its ticker fires at 1 s; the
bucket of `client1` is created 1 ms after construction and exhausted at once.
The tick at 1 s sees `elapsed = int(0.999) = 0` and returns without refilling, so
the request made 1.2 s after the exhaustion is denied. -/
theorem refill_missed_after_1200ms :
    (allowSeq (NewRateLimiter 5 1 (fun _ => .error .notFound)) "client1"
        [1000000, 1000000, 1000000, 1000000, 1000000, 1000000]).1
      = [true, true, true, true, true, false] ∧
    (((allowSeq (NewRateLimiter 5 1 (fun _ => .error .notFound)) "client1"
        [1000000, 1000000, 1000000, 1000000, 1000000, 1000000]).2.refillTokens
          (fun _ => 1000000000)).AllowRequest "client1" 1201000000).1 = false := by
  decide

end ratelimiter

namespace balancer

theorem aliveFrom_mem (bs : List Backend) :
    ∀ (i : Nat) (r : BackendRef), r ∈ aliveFrom i bs →
      i ≤ r.1 ∧ bs[r.1 - i]? = some r.2 ∧ r.2.IsAlive = true := by
  induction bs with
  | nil => intro i r h; cases h
  | cons b bs ih =>
    intro i r h
    unfold aliveFrom at h
    have tail : r ∈ aliveFrom (i + 1) bs →
        i ≤ r.1 ∧ (b :: bs)[r.1 - i]? = some r.2 ∧ r.2.IsAlive = true := by
      intro h2
      obtain ⟨h3, h4, h5⟩ := ih (i + 1) r h2
      refine ⟨by omega, ?_, h5⟩
      have : r.1 - i = (r.1 - (i + 1)) + 1 := by omega
      rw [this, List.getElem?_cons_succ]
      exact h4
    split_ifs at h with hb
    · rcases List.mem_cons.mp h with h1 | h2
      · subst h1
        exact ⟨le_refl _, by simp, hb⟩
      · exact tail h2
    · exact tail h

theorem aliveFrom_sorted (bs : List Backend) :
    ∀ i : Nat, List.Pairwise (fun x y : BackendRef => x.1 < y.1) (aliveFrom i bs) := by
  induction bs with
  | nil => intro i; exact List.Pairwise.nil
  | cons b bs ih =>
    intro i
    unfold aliveFrom
    split_ifs with hb
    · refine List.Pairwise.cons ?_ (ih (i + 1))
      intro r hr
      have := (aliveFrom_mem bs (i + 1) r hr).1
      show i < r.1
      omega
    · exact ih (i + 1)

theorem GetAliveBackends_mem (p : ServerPool) (r : BackendRef) (h : r ∈ p.GetAliveBackends) :
    p.backends[r.1]? = some r.2 ∧ r.2.IsAlive = true := by
  obtain ⟨-, h2, h3⟩ := aliveFrom_mem p.backends 0 r h
  exact ⟨by simpa using h2, h3⟩

theorem aliveFrom_length (bs : List Backend) :
    ∀ i : Nat, (aliveFrom i bs).length = bs.countP Backend.IsAlive := by
  induction bs with
  | nil => intro i; rfl
  | cons b bs ih =>
    intro i
    unfold aliveFrom
    split_ifs with hb
    · rw [List.length_cons, ih (i + 1), List.countP_cons_of_pos _ _ hb]
    · rw [ih (i + 1), List.countP_cons_of_neg _ _ hb]

theorem aliveFrom_complete (bs : List Backend) :
    ∀ (i j : Nat) (b : Backend), bs[j]? = some b → b.IsAlive = true →
      (i + j, b) ∈ aliveFrom i bs := by
  induction bs with
  | nil => intro i j b h; simp at h
  | cons a bs ih =>
    intro i j b h hb
    unfold aliveFrom
    cases j with
    | zero =>
      simp only [List.getElem?_cons_zero, Option.some.injEq] at h
      subst h
      rw [if_pos hb]
      exact List.mem_cons_self _ _
    | succ j =>
      rw [List.getElem?_cons_succ] at h
      have hmem := ih (i + 1) j b h hb
      have e : i + 1 + j = i + (j + 1) := by omega
      rw [e] at hmem
      split_ifs
      · exact List.mem_cons_of_mem _ hmem
      · exact hmem

theorem aliveFrom_rank (bs : List Backend) :
    ∀ (i k : Nat) (r : BackendRef), (aliveFrom i bs)[k]? = some r →
      (bs.take (r.1 - i)).countP Backend.IsAlive = k := by
  induction bs with
  | nil => intro i k r h; simp [aliveFrom] at h
  | cons b bs ih =>
    intro i k r h
    unfold aliveFrom at h
    have tail : ∀ k2 : Nat, (aliveFrom (i + 1) bs)[k2]? = some r →
        r.1 - i = (r.1 - (i + 1)) + 1 ∧
          (bs.take (r.1 - (i + 1))).countP Backend.IsAlive = k2 := by
      intro k2 h2
      have := (aliveFrom_mem bs (i + 1) r (List.getElem?_mem h2)).1
      exact ⟨by omega, ih (i + 1) k2 r h2⟩
    split_ifs at h with hb
    · cases k with
      | zero =>
        simp only [List.getElem?_cons_zero, Option.some.injEq] at h
        subst h
        simp
      | succ k =>
        rw [List.getElem?_cons_succ] at h
        obtain ⟨e, hk⟩ := tail k h
        rw [e, List.take_succ_cons, List.countP_cons_of_pos _ _ hb, hk]
    · obtain ⟨e, hk⟩ := tail k h
      rw [e, List.take_succ_cons, List.countP_cons_of_neg _ _ hb, hk]

theorem GetAliveBackends_length (p : ServerPool) :
    p.GetAliveBackends.length = p.backends.countP Backend.IsAlive :=
  aliveFrom_length p.backends 0

theorem GetAliveBackends_complete (p : ServerPool) (j : Nat) (b : Backend)
    (h : p.backends[j]? = some b) (hb : b.IsAlive = true) : (j, b) ∈ p.GetAliveBackends := by
  have := aliveFrom_complete p.backends 0 j b h hb
  rwa [Nat.zero_add] at this

theorem GetAliveBackends_rank (p : ServerPool) (k : Nat) (r : BackendRef)
    (h : p.GetAliveBackends[k]? = some r) :
    (p.backends.take r.1).countP Backend.IsAlive = k :=
  aliveFrom_rank p.backends 0 k r h

theorem GetAliveBackends_eq_nil_iff (p : ServerPool) :
    p.GetAliveBackends = [] ↔ ∀ b ∈ p.backends, b.IsAlive = false := by
  rw [← List.length_eq_zero, GetAliveBackends_length, List.countP_eq_zero]
  simp

theorem GetAliveBackends_ne_nil_iff (p : ServerPool) :
    p.GetAliveBackends ≠ [] ↔ ∃ b ∈ p.backends, b.IsAlive = true := by
  rw [Ne, GetAliveBackends_eq_nil_iff]
  simp

theorem leastScan_spec (xs : List BackendRef) :
    ∀ m : BackendRef, ∃ r, leastScan (some m) m.2.GetConnections xs = some r ∧
      ((r = m ∧ ∀ x ∈ xs, m.2.GetConnections ≤ x.2.GetConnections) ∨
        (∃ j : Nat, xs[j]? = some r ∧ r.2.GetConnections < m.2.GetConnections ∧
          ∀ (k : Nat) (x : BackendRef), xs[k]? = some x →
            r.2.GetConnections ≤ x.2.GetConnections ∧
              (k < j → r.2.GetConnections < x.2.GetConnections))) := by
  induction xs with
  | nil =>
    intro m
    exact ⟨m, rfl, Or.inl ⟨rfl, fun x hx => by cases hx⟩⟩
  | cons b bs ih =>
    intro m
    unfold leastScan
    simp only [reduceCtorEq, false_or]
    split_ifs with hlt
    · obtain ⟨r, hr, hcase⟩ := ih b
      refine ⟨r, hr, Or.inr ?_⟩
      rcases hcase with ⟨rfl, hall⟩ | ⟨j, hj, hlt2, hall⟩
      · refine ⟨0, List.getElem?_cons_zero, hlt, ?_⟩
        intro k x hk
        cases k with
        | zero =>
          simp only [List.getElem?_cons_zero, Option.some.injEq] at hk
          subst hk
          exact ⟨le_refl _, fun h => absurd h (Nat.lt_irrefl 0)⟩
        | succ k =>
          rw [List.getElem?_cons_succ] at hk
          exact ⟨hall x (List.getElem?_mem hk), fun h => absurd h (Nat.not_lt_zero _)⟩
      · refine ⟨j + 1, by rw [List.getElem?_cons_succ]; exact hj, lt_trans hlt2 hlt, ?_⟩
        intro k x hk
        cases k with
        | zero =>
          simp only [List.getElem?_cons_zero, Option.some.injEq] at hk
          subst hk
          exact ⟨le_of_lt hlt2, fun _ => hlt2⟩
        | succ k =>
          rw [List.getElem?_cons_succ] at hk
          exact ⟨(hall k x hk).1, fun h => (hall k x hk).2 (by omega)⟩
    · obtain ⟨r, hr, hcase⟩ := ih m
      refine ⟨r, hr, ?_⟩
      rcases hcase with ⟨rfl, hall⟩ | ⟨j, hj, hlt2, hall⟩
      · left
        refine ⟨rfl, ?_⟩
        intro x hx
        rcases List.mem_cons.mp hx with rfl | h
        · exact not_lt.mp hlt
        · exact hall x h
      · right
        refine ⟨j + 1, by rw [List.getElem?_cons_succ]; exact hj, hlt2, ?_⟩
        intro k x hk
        cases k with
        | zero =>
          simp only [List.getElem?_cons_zero, Option.some.injEq] at hk
          subst hk
          have := not_lt.mp hlt
          exact ⟨by omega, fun _ => by omega⟩
        | succ k =>
          rw [List.getElem?_cons_succ] at hk
          exact ⟨(hall k x hk).1, fun h => (hall k x hk).2 (by omega)⟩

theorem leastScan_first (xs : List BackendRef) (hne : xs ≠ []) :
    ∃ (j : Nat) (r : BackendRef), xs[j]? = some r ∧ leastScan none maxInt xs = some r ∧
      ∀ (k : Nat) (x : BackendRef), xs[k]? = some x →
        r.2.GetConnections ≤ x.2.GetConnections ∧
          (k < j → r.2.GetConnections < x.2.GetConnections) := by
  cases xs with
  | nil => exact absurd rfl hne
  | cons a rest =>
    have hstart : leastScan none maxInt (a :: rest) = leastScan (some a) a.2.GetConnections rest := by
      simp [leastScan]
    obtain ⟨r, hr, hcase⟩ := leastScan_spec rest a
    rw [hstart]
    rcases hcase with ⟨rfl, hall⟩ | ⟨j, hj, hlt, hall⟩
    · refine ⟨0, r, List.getElem?_cons_zero, hr, ?_⟩
      intro k x hk
      cases k with
      | zero =>
        simp only [List.getElem?_cons_zero, Option.some.injEq] at hk
        subst hk
        exact ⟨le_refl _, fun h => absurd h (Nat.lt_irrefl 0)⟩
      | succ k =>
        rw [List.getElem?_cons_succ] at hk
        exact ⟨hall x (List.getElem?_mem hk), fun h => absurd h (Nat.not_lt_zero _)⟩
    · refine ⟨j + 1, r, by rw [List.getElem?_cons_succ]; exact hj, hr, ?_⟩
      intro k x hk
      cases k with
      | zero =>
        simp only [List.getElem?_cons_zero, Option.some.injEq] at hk
        subst hk
        exact ⟨le_of_lt hlt, fun _ => hlt⟩
      | succ k =>
        rw [List.getElem?_cons_succ] at hk
        exact ⟨(hall k x hk).1, fun h => (hall k x hk).2 (by omega)⟩

theorem RoundRobin_Next_eq (p : ServerPool) (hne : p.GetAliveBackends ≠ []) :
    (RoundRobin.Next p).1 = p.GetAliveBackends[p.current % p.GetAliveBackends.length]? ∧
      (RoundRobin.Next p).2 = { p with current := (p.current + 1) % 2 ^ 64 } := by
  have hlen : ¬ p.GetAliveBackends.length = 0 := fun h => hne (List.length_eq_zero.mp h)
  unfold RoundRobin.Next
  simp only [hlen, dite_false, List.get_eq_getElem, and_true]
  rw [List.getElem?_eq_getElem]

theorem NextBackend_RoundRobin (p : ServerPool) (hs : p.strategy = some .RoundRobin)
    (draw : Nat) : p.NextBackend draw = RoundRobin.Next p := by
  unfold ServerPool.NextBackend
  rw [hs]
  rfl

theorem afterCalls_RoundRobin (draws : List Nat) :
    ∀ p : ServerPool, p.strategy = some .RoundRobin → p.GetAliveBackends ≠ [] →
      p.current < 2 ^ 64 →
      p.afterCalls draws = { p with current := (p.current + draws.length) % 2 ^ 64 } := by
  induction draws with
  | nil =>
    intro p _ _ hc
    simp only [ServerPool.afterCalls, List.length_nil, Nat.add_zero, Nat.mod_eq_of_lt hc]
  | cons d ds ih =>
    intro p hs hne hc
    have hnext : (p.NextBackend d).2 = { p with current := (p.current + 1) % 2 ^ 64 } := by
      rw [NextBackend_RoundRobin p hs d]
      exact (RoundRobin_Next_eq p hne).2
    have hrec := ih { p with current := (p.current + 1) % 2 ^ 64 } hs hne
      (Nat.mod_lt _ (by norm_num))
    rw [ServerPool.afterCalls, hnext, hrec]
    simp only [List.length_cons, ServerPool.mk.injEq, true_and, and_true]
    omega

/-- C5: under `RoundRobin`, starting from a pool whose cursor is `0` (as
`NewServerPool` leaves it) and of whose backends `n ≥ 1` have the alive flag
set, the call that follows `i < 2 ^ 64` earlier `NextBackend()` calls returns
the alive backend at position `i mod n` among the alive backends in pool
order: the returned backend is the one stored at its pool position, its alive
flag is set, and exactly `i mod n` alive backends stand before it in
`backends`.  The earlier calls leave the backends, hence the alive set, as they
were. -/
theorem round_robin_cycles (p : ServerPool) (hs : p.strategy = some .RoundRobin)
    (hc : p.current = 0) (hn : 1 ≤ p.backends.countP Backend.IsAlive) (draws : List Nat)
    (hi : draws.length < 2 ^ 64) (draw : Nat) :
    (p.afterCalls draws).backends = p.backends ∧
      ∃ r : BackendRef, ((p.afterCalls draws).NextBackend draw).1 = some r ∧
        p.backends[r.1]? = some r.2 ∧ r.2.IsAlive = true ∧
        (p.backends.take r.1).countP Backend.IsAlive =
          draws.length % p.backends.countP Backend.IsAlive := by
  have hlen := GetAliveBackends_length p
  have hne : p.GetAliveBackends ≠ [] := by
    intro h
    rw [h, List.length_nil] at hlen
    omega
  have hafter := afterCalls_RoundRobin draws p hs hne (by rw [hc]; norm_num)
  rw [hc, Nat.zero_add, Nat.mod_eq_of_lt hi] at hafter
  have hsel : ((p.afterCalls draws).NextBackend draw).1 =
      p.GetAliveBackends[draws.length % p.GetAliveBackends.length]? := by
    rw [hafter, NextBackend_RoundRobin { p with current := draws.length } hs draw]
    exact (RoundRobin_Next_eq { p with current := draws.length } hne).1
  have hlt : draws.length % p.GetAliveBackends.length < p.GetAliveBackends.length :=
    Nat.mod_lt _ (by omega)
  have hget := List.getElem?_eq_getElem hlt
  obtain ⟨h1, h2⟩ := GetAliveBackends_mem p _ (List.getElem?_mem hget)
  refine ⟨by rw [hafter], _, hsel.trans hget, h1, h2, ?_⟩
  rw [GetAliveBackends_rank p _ _ hget, hlen]

/-- Witness of `round_robin_cycles`: the pool of `TestRoundRobinStrategy`
yields `a, b, c, a, b, c`; with `b` marked not alive the calls yield
`a, c, a, c`, and the fourth call returns the backend with one alive backend
before it. -/
theorem round_robin_cycles_witness :
    (((NewServerPool ["http://a", "http://b", "http://c"]).SetStrategy
        (some .RoundRobin)).selections [0, 0, 0, 0, 0, 0]).map
        (fun o => o.map (fun r => r.2.URL)) =
      [some "http://a", some "http://b", some "http://c",
        some "http://a", some "http://b", some "http://c"] ∧
    ((((NewServerPool ["http://a", "http://b", "http://c"]).SetStrategy
        (some .RoundRobin)).MarkBackendAlive "http://b" false).selections [0, 0, 0, 0]).map
        (fun o => o.map (fun r => r.2.URL)) =
      [some "http://a", some "http://c", some "http://a", some "http://c"] ∧
    ∃ r : BackendRef,
      (((((NewServerPool ["http://a", "http://b", "http://c"]).SetStrategy
        (some .RoundRobin)).MarkBackendAlive "http://b" false).afterCalls
          [0, 0, 0]).NextBackend 0).1 = some r ∧
      ((((NewServerPool ["http://a", "http://b", "http://c"]).SetStrategy
        (some .RoundRobin)).MarkBackendAlive "http://b" false).backends.take r.1).countP
          Backend.IsAlive = 1 :=
  ⟨by decide, by decide,
    match round_robin_cycles (((NewServerPool ["http://a", "http://b", "http://c"]).SetStrategy
      (some .RoundRobin)).MarkBackendAlive "http://b" false) rfl rfl (by decide) [0, 0, 0]
      (by norm_num) 0 with
    | ⟨_, r, h1, _, _, h4⟩ => ⟨r, h1, h4⟩⟩

/-- C6: on a pool in which at least one backend has the alive flag set,
`LeastConnectionsStrategy.Next` returns a backend `r` of the pool whose alive
flag is set and whose `GetConnections()` is at most that of every alive backend
of the pool and strictly below that of every alive backend standing before it
in `backends`; hence an alive backend with the same count stands at or after
`r`: among the alive backends with the minimum count `r` is the first in pool
order. -/
theorem least_connections_first_minimum (p : ServerPool)
    (hne : ∃ b ∈ p.backends, b.IsAlive = true) :
    ∃ r : BackendRef, LeastConnectionsStrategy.Next p = some r ∧
      p.backends[r.1]? = some r.2 ∧ r.2.IsAlive = true ∧
      ∀ (j : Nat) (b : Backend), p.backends[j]? = some b → b.IsAlive = true →
        r.2.GetConnections ≤ b.GetConnections ∧
          (j < r.1 → r.2.GetConnections < b.GetConnections) ∧
          (b.GetConnections = r.2.GetConnections → r.1 ≤ j) := by
  have hne2 := (GetAliveBackends_ne_nil_iff p).2 hne
  obtain ⟨j0, r, hj, hr, hall⟩ := leastScan_first p.GetAliveBackends hne2
  have hlen : ¬ p.GetAliveBackends.length = 0 := fun h => hne2 (List.length_eq_zero.mp h)
  obtain ⟨hr1, hr2⟩ := GetAliveBackends_mem p r (List.getElem?_mem hj)
  refine ⟨r, ?_, hr1, hr2, ?_⟩
  · unfold LeastConnectionsStrategy.Next
    simp only [hlen, if_false]
    exact hr
  · intro j b hb halive
    obtain ⟨k, hk, hkx⟩ := List.getElem_of_mem (GetAliveBackends_complete p j b hb halive)
    have hk2 : p.GetAliveBackends[k]? = some (j, b) := by
      rw [List.getElem?_eq_getElem hk, hkx]
    have h := hall k (j, b) hk2
    have hstrict : j < r.1 → r.2.GetConnections < b.GetConnections := by
      intro hlt
      apply h.2
      by_contra hge
      rcases Nat.eq_or_lt_of_le (not_lt.mp hge) with heq | hlt2
      · subst heq
        rw [hj] at hk2
        cases hk2
        exact Nat.lt_irrefl _ hlt
      · have hsorted : List.Pairwise (fun x y : BackendRef => x.1 < y.1) p.GetAliveBackends :=
          aliveFrom_sorted p.backends 0
        have hjlen : j0 < p.GetAliveBackends.length := lt_trans hlt2 hk
        have hrj : p.GetAliveBackends[j0] = r := by
          rw [List.getElem?_eq_getElem hjlen] at hj
          exact Option.some.inj hj
        have := List.pairwise_iff_getElem.mp hsorted j0 k hjlen hk hlt2
        rw [hrj, hkx] at this
        exact Nat.lt_asymm hlt this
    refine ⟨h.1, hstrict, ?_⟩
    intro heq
    by_contra hc
    have := hstrict (not_le.mp hc)
    rw [heq] at this
    exact lt_irrefl _ this

/-- Witness of `least_connections_first_minimum`: the pool of
`TestLeastConnectionsStrategy` with counts `[5, 2, 7]` selects `b`; in a pool
with counts `[5, 1, 2, 2]` whose second backend is not alive, the count 1 is
passed over and the first of the two backends with count 2 is selected. -/
theorem least_connections_first_minimum_witness :
    LeastConnectionsStrategy.Next
      { backends := [⟨"http://a", true, 5⟩, ⟨"http://b", true, 2⟩, ⟨"http://c", true, 7⟩]
        current := 0
        strategy := some .LeastConnectionsStrategy } = some (1, ⟨"http://b", true, 2⟩) ∧
    LeastConnectionsStrategy.Next
      { backends := [⟨"http://a", true, 5⟩, ⟨"http://b", false, 1⟩, ⟨"http://c", true, 2⟩,
          ⟨"http://d", true, 2⟩]
        current := 0
        strategy := some .LeastConnectionsStrategy } = some (2, ⟨"http://c", true, 2⟩) ∧
    ∃ r : BackendRef,
      LeastConnectionsStrategy.Next
        { backends := [⟨"http://a", true, 5⟩, ⟨"http://b", false, 1⟩, ⟨"http://c", true, 2⟩,
            ⟨"http://d", true, 2⟩]
          current := 0
          strategy := some .LeastConnectionsStrategy } = some r ∧
      r.2.IsAlive = true ∧ r.2.GetConnections ≤ 2 ∧ (2 < r.1 → r.2.GetConnections < 2) :=
  ⟨by decide, by decide,
    match least_connections_first_minimum
      { backends := [⟨"http://a", true, 5⟩, ⟨"http://b", false, 1⟩, ⟨"http://c", true, 2⟩,
          ⟨"http://d", true, 2⟩]
        current := 0
        strategy := some .LeastConnectionsStrategy }
      ⟨⟨"http://a", true, 5⟩, by decide, rfl⟩ with
    | ⟨r, h1, _, h3, h4⟩ =>
      ⟨r, h1, h3, (h4 2 ⟨"http://c", true, 2⟩ rfl rfl).1,
        (h4 2 ⟨"http://c", true, 2⟩ rfl rfl).2.1⟩⟩

theorem leastScan_mem (xs : List BackendRef) :
    ∀ (min : Option BackendRef) (c : Int) (r : BackendRef),
      leastScan min c xs = some r → min = some r ∨ r ∈ xs := by
  induction xs with
  | nil => intro min c r h; exact Or.inl h
  | cons b bs ih =>
    intro min c r h
    unfold leastScan at h
    simp only at h
    split_ifs at h
    · rcases ih _ _ r h with h1 | h2
      · right
        rw [Option.some.inj h1]
        exact List.mem_cons_self _ _
      · exact Or.inr (List.mem_cons_of_mem _ h2)
    · rcases ih _ _ r h with h1 | h2
      · exact Or.inl h1
      · exact Or.inr (List.mem_cons_of_mem _ h2)

/-- C7: for every pool, every strategy and every random draw, a backend that
`NextBackend()` returns is an element of the alive snapshot `GetAliveBackends()`:
it is the backend stored at its pool position and its alive flag is `true`. -/
theorem next_backend_is_alive (p : ServerPool) (draw : Nat) (r : BackendRef)
    (h : (p.NextBackend draw).1 = some r) :
    r ∈ p.GetAliveBackends ∧ p.backends[r.1]? = some r.2 ∧ r.2.IsAlive = true := by
  have hmem : r ∈ p.GetAliveBackends := by
    unfold ServerPool.NextBackend at h
    cases hs : p.strategy with
    | none => rw [hs] at h; cases h
    | some s =>
      rw [hs] at h
      cases s with
      | RoundRobin =>
        simp only [Strategy.Next, RoundRobin.Next] at h
        split_ifs at h with hlen
        simp only [Option.some.injEq] at h
        rw [← h]
        exact List.get_mem _ _ _
      | LeastConnectionsStrategy =>
        simp only [Strategy.Next, LeastConnectionsStrategy.Next] at h
        split_ifs at h with hlen
        rcases leastScan_mem _ _ _ r h with h1 | h2
        · cases h1
        · exact h2
      | RandomStrategy =>
        simp only [Strategy.Next, RandomStrategy.Next] at h
        split_ifs at h with hlen
        simp only [Option.some.injEq] at h
        rw [← h]
        exact List.get_mem _ _ _
  exact ⟨hmem, GetAliveBackends_mem p r hmem⟩

/-- Witness of `next_backend_is_alive`: the random strategy on a pool whose
second backend is marked not alive; draw 1 selects the third backend. -/
theorem next_backend_is_alive_witness :
    ((2, NewBackend "http://c") : BackendRef) ∈
      (((NewServerPool ["http://a", "http://b", "http://c"]).SetStrategy
        (some .RandomStrategy)).MarkBackendAlive "http://b" false).GetAliveBackends :=
  (next_backend_is_alive
    (((NewServerPool ["http://a", "http://b", "http://c"]).SetStrategy
      (some .RandomStrategy)).MarkBackendAlive "http://b" false) 1
    (2, NewBackend "http://c") (by decide)).1

theorem NextBackend_none_iff_snapshot (p : ServerPool) (draw : Nat) :
    (p.NextBackend draw).1 = none ↔ (p.GetAliveBackends = [] ∨ p.strategy = none) := by
  unfold ServerPool.NextBackend
  cases hs : p.strategy with
  | none => simp
  | some s =>
    simp only [reduceCtorEq, or_false]
    by_cases hne : p.GetAliveBackends = []
    · have hlen : p.GetAliveBackends.length = 0 := by rw [hne]; rfl
      cases s <;>
        simp [Strategy.Next, RoundRobin.Next, LeastConnectionsStrategy.Next,
          RandomStrategy.Next, hlen, hne]
    · have hlen : ¬ p.GetAliveBackends.length = 0 := fun h => hne (List.length_eq_zero.mp h)
      cases s with
      | RoundRobin => simp [Strategy.Next, RoundRobin.Next, hlen, hne]
      | LeastConnectionsStrategy =>
        obtain ⟨j, r, -, hr, -⟩ := leastScan_first p.GetAliveBackends hne
        simp [Strategy.Next, LeastConnectionsStrategy.Next, hlen, hne, hr]
      | RandomStrategy => simp [Strategy.Next, RandomStrategy.Next, hlen, hne]

/-- C8: `NextBackend()` returns nil exactly when no backend of the pool has its
alive flag set or no strategy is set, for every pool, strategy and random draw;
in every other case it returns a backend. -/
theorem next_backend_none_iff (p : ServerPool) (draw : Nat) :
    (p.NextBackend draw).1 = none ↔
      ((∀ b ∈ p.backends, b.IsAlive = false) ∨ p.strategy = none) := by
  rw [NextBackend_none_iff_snapshot, GetAliveBackends_eq_nil_iff]

/-- Witness of `next_backend_none_iff`: a pool whose two backends are both not
alive gives nil under each strategy; with one of them alive a backend is
returned; without a strategy the result is nil although both are alive. -/
theorem next_backend_none_iff_witness :
    ((ServerPool.mk [⟨"http://a", false, 0⟩, ⟨"http://b", false, 0⟩] 0
        (some .RoundRobin)).NextBackend 0).1 = none ∧
      ((ServerPool.mk [⟨"http://a", false, 0⟩, ⟨"http://b", false, 0⟩] 0
        (some .LeastConnectionsStrategy)).NextBackend 0).1 = none ∧
      ((ServerPool.mk [⟨"http://a", false, 0⟩, ⟨"http://b", false, 0⟩] 0
        (some .RandomStrategy)).NextBackend 0).1 = none ∧
      ((ServerPool.mk [⟨"http://a", false, 0⟩, ⟨"http://b", true, 0⟩] 0
        (some .LeastConnectionsStrategy)).NextBackend 0).1 ≠ none ∧
      ((NewServerPool ["http://a", "http://b"]).NextBackend 0).1 = none :=
  ⟨(next_backend_none_iff _ 0).2 (Or.inl (by decide)),
    (next_backend_none_iff _ 0).2 (Or.inl (by decide)),
    (next_backend_none_iff _ 0).2 (Or.inl (by decide)),
    fun h => absurd ((next_backend_none_iff _ 0).1 h) (by decide),
    (next_backend_none_iff _ 0).2 (Or.inr rfl)⟩

end balancer

namespace ratelimiter

theorem clientIDOf_remote_first (r : Request) (hp : String × String)
    (hid : r.HeaderGet "X-Client-ID" = "") (hsplit : SplitHostPort r.RemoteAddr = some hp) :
    clientIDOf r = hp.1 := by
  unfold clientIDOf extractClientIP
  rw [if_pos hid, hsplit]

/-- C9 (the code at the failing input): a request without `X-Client-ID`, with
`X-Real-IP: 1.2.3.4` and `X-Forwarded-For: 5.6.7.8`, arriving from the
connection `10.0.0.1:1234`, is counted under the key `10.0.0.1`: the middleware
tries the remote address first and only falls back to the headers when it does
not parse.  The proxy handler's `getClientIP` derives `1.2.3.4` for the same
request. -/
theorem rate_limit_key_ignores_real_ip :
    clientIDOf
        { Path := "/"
          Header := [("X-Real-IP", "1.2.3.4"), ("X-Forwarded-For", "5.6.7.8, 9.9.9.9")]
          RemoteAddr := "10.0.0.1:1234" } = "10.0.0.1" ∧
      proxy.getClientIP
        { Path := "/"
          Header := [("X-Real-IP", "1.2.3.4"), ("X-Forwarded-For", "5.6.7.8, 9.9.9.9")]
          RemoteAddr := "10.0.0.1:1234" } = "1.2.3.4" := by
  decide

end ratelimiter

namespace proxy

open balancer

theorem ServeHTTP_favicon (pool : ServerPool) (draw : Nat) (upstream : Except String Response)
    (r : Request) (h : r.Path = "/favicon.ico") :
    ProxyHandler.ServeHTTP pool draw upstream r =
      ({ status := 204, contentType := "", body := "" }, pool) := by
  unfold ProxyHandler.ServeHTTP
  rw [if_pos h]

end proxy

namespace server

open balancer ratelimiter

/-- C10 (the code at the failing input): `GET /favicon.ico` with
`X-Client-ID: c1` goes through the rate-limit middleware before it reaches the
proxy handler.  When the bucket of `c1` (capacity 1) is exhausted the response
is `429`, not `204`; when it is not, the response is `204` and the request has
taken the token of `c1`. -/
theorem favicon_is_rate_limited :
    (wrappedHandler ((NewRateLimiter 1 1 (fun _ => .error .notFound)).AllowRequest "c1" 0).2
        ((NewServerPool ["http://a"]).SetStrategy (some .RoundRobin)) 0 0
        (.ok { status := 200, contentType := "", body := "" })
        { Path := "/favicon.ico", Header := [("X-Client-ID", "c1")],
          RemoteAddr := "10.0.0.1:1234" }).1.status = 429 ∧
    (wrappedHandler (NewRateLimiter 1 1 (fun _ => .error .notFound))
        ((NewServerPool ["http://a"]).SetStrategy (some .RoundRobin)) 0 0
        (.ok { status := 200, contentType := "", body := "" })
        { Path := "/favicon.ico", Header := [("X-Client-ID", "c1")],
          RemoteAddr := "10.0.0.1:1234" }).1.status = 204 ∧
    ((wrappedHandler (NewRateLimiter 1 1 (fun _ => .error .notFound))
        ((NewServerPool ["http://a"]).SetStrategy (some .RoundRobin)) 0 0
        (.ok { status := 200, contentType := "", body := "" })
        { Path := "/favicon.ico", Header := [("X-Client-ID", "c1")],
          RemoteAddr := "10.0.0.1:1234" }).2.1.buckets "c1").map (fun b => b.tokens) =
      some 0 := by
  decide

theorem wrappedHandler_favicon (rl : RateLimiter) (pool : ServerPool) (now : Int) (draw : Nat)
    (upstream : Except String Response) (r : Request) (h : r.Path = "/favicon.ico") :
    (wrappedHandler rl pool now draw upstream r).2.2 = pool ∧
      (wrappedHandler rl pool now draw upstream r).2.1 =
        (rl.AllowRequest (clientIDOf r) now).2 ∧
      (wrappedHandler rl pool now draw upstream r).1.status =
        (if (rl.AllowRequest (clientIDOf r) now).1 = true then 204 else 429) := by
  unfold wrappedHandler RateLimitMiddleware
  simp only [proxy.ServeHTTP_favicon pool draw upstream r h]
  cases hres : (rl.AllowRequest (clientIDOf r) now).1 <;> simp [tooManyRequests]

end server

namespace ratelimiter

/-- C11: `RemoveClient(c)` leaves `c` without a bucket, and `AllowRequest(c)` for
a client without a bucket first creates the bucket of `c` and of no other
client, with the repository's `(Capacity, RefillRate)` and `tokens = Capacity`
when `Get` succeeds and with the process defaults and `tokens = defaultCap` when
`Get` returns `ErrNotFound` or any other error, and then consumes from it; the
call returns the flag of that `consume`, whatever the repository answered. -/
theorem allow_request_creates_bucket (rl : RateLimiter) (c : String) (now : Int) :
    (rl.RemoveClient c).buckets c = none ∧
    (rl.buckets c = none →
      (∀ l, rl.repo c = .ok l →
        rl.AllowRequest c now =
          ((tokenBucket.consume ⟨l.Capacity, l.RefillRate, l.Capacity, now⟩).1,
            ⟨setBucket rl.buckets c
                (tokenBucket.consume ⟨l.Capacity, l.RefillRate, l.Capacity, now⟩).2,
              rl.repo, rl.defaultCap, rl.defaultRefill⟩)) ∧
      (∀ e, rl.repo c = .error e →
        rl.AllowRequest c now =
          ((tokenBucket.consume ⟨rl.defaultCap, rl.defaultRefill, rl.defaultCap, now⟩).1,
            ⟨setBucket rl.buckets c
                (tokenBucket.consume ⟨rl.defaultCap, rl.defaultRefill, rl.defaultCap, now⟩).2,
              rl.repo, rl.defaultCap, rl.defaultRefill⟩))) := by
  refine ⟨by simp [RateLimiter.RemoveClient, deleteBucket], ?_⟩
  intro hnone
  constructor
  · intro l hl
    unfold RateLimiter.AllowRequest RateLimiter.initBucketForClient
    simp only [hnone, hl, newTokenBucket, setBucket_twice]
  · intro e he
    unfold RateLimiter.AllowRequest RateLimiter.initBucketForClient
    simp only [hnone, he, newTokenBucket, setBucket_twice]

/-- Witness of `allow_request_creates_bucket`: after `RemoveClient("c")` the
next request of `c` gets a bucket from the process defaults `(5, 1)` because the
repository does not know the client, and is allowed. -/
theorem allow_request_creates_bucket_witness :
    (((NewRateLimiter 5 1 (fun _ => .error .notFound)).RemoveClient "c").AllowRequest "c" 7).1 =
        true ∧
      (((NewRateLimiter 5 1 (fun _ => .error .notFound)).RemoveClient "c").AllowRequest
        "c" 7).2.buckets "c" = some ⟨5, 1, 4, 7⟩ :=
  have h := ((allow_request_creates_bucket
    ((NewRateLimiter 5 1 (fun _ => .error .notFound)).RemoveClient "c") "c" 7).2 rfl).2
      .notFound rfl
  ⟨by rw [h]; rfl, by rw [h]; rfl⟩

theorem SetClientLimit_existing (rl : RateLimiter) (c : String) (limit : ClientLimit)
    (now : Int) (b : tokenBucket) (hb : rl.buckets c = some b) :
    (rl.SetClientLimit c limit now).buckets c =
      some ⟨limit.Capacity, limit.RefillRate, b.tokens, b.lastRefilled⟩ := by
  simp only [SetClientLimit_buckets, setBucket_same, RateLimiter.bucketAfterSet, hb]

/-- C12: `SetClientLimit(c, limit)` on an existing bucket sets its capacity and
refill rate to the new values and keeps its tokens and `lastRefilled`; when `c`
has no bucket it creates one with the new capacity and refill rate and
`tokens = capacity`. -/
theorem set_client_limit_effect (rl : RateLimiter) (c : String) (limit : ClientLimit)
    (now : Int) :
    (∀ b, rl.buckets c = some b →
      (rl.SetClientLimit c limit now).buckets c =
        some ⟨limit.Capacity, limit.RefillRate, b.tokens, b.lastRefilled⟩) ∧
    (rl.buckets c = none →
      (rl.SetClientLimit c limit now).buckets c =
        some ⟨limit.Capacity, limit.RefillRate, limit.Capacity, now⟩) := by
  constructor
  · intro b hb
    exact SetClientLimit_existing rl c limit now b hb
  · intro hnone
    simp only [SetClientLimit_buckets, setBucket_same, RateLimiter.bucketAfterSet, hnone,
      newTokenBucket]

/-- Witness of `set_client_limit_effect`: a bucket of capacity 5 that has served
one request is reconfigured to `(9, 3)` and keeps its 4 tokens. -/
theorem set_client_limit_effect_witness :
    (((NewRateLimiter 5 1 (fun _ => .error .notFound)).AllowRequest "c" 7).2.SetClientLimit
        "c" ⟨9, 3⟩ 8).buckets "c" = some ⟨9, 3, 4, 7⟩ ∧
      ((NewRateLimiter 5 1 (fun _ => .error .notFound)).SetClientLimit "c" ⟨9, 3⟩ 8).buckets
        "c" = some ⟨9, 3, 9, 8⟩ :=
  ⟨(set_client_limit_effect ((NewRateLimiter 5 1 (fun _ => .error .notFound)).AllowRequest
      "c" 7).2 "c" ⟨9, 3⟩ 8).1 ⟨5, 1, 4, 7⟩ (by decide),
    (set_client_limit_effect (NewRateLimiter 5 1 (fun _ => .error .notFound))
      "c" ⟨9, 3⟩ 8).2 rfl⟩

end ratelimiter
namespace ratelimiter

theorem AllowRequest_result_congr (rl1 rl2 : RateLimiter) (d : String) (now : Int)
    (hb : rl1.buckets d = rl2.buckets d) (hr : rl1.repo = rl2.repo)
    (hc : rl1.defaultCap = rl2.defaultCap) (hf : rl1.defaultRefill = rl2.defaultRefill) :
    (rl1.AllowRequest d now).1 = (rl2.AllowRequest d now).1 := by
  rw [AllowRequest_result, AllowRequest_result]
  unfold RateLimiter.bucketFor RateLimiter.initBucketForClient
  simp only [hb, hr, hc, hf]

theorem allowSeq_frame (c d : String) (hne : d ≠ c) (nows : List Int) :
    ∀ rl : RateLimiter, (allowSeq rl c nows).2.buckets d = rl.buckets d ∧
      (allowSeq rl c nows).2.repo = rl.repo ∧
      (allowSeq rl c nows).2.defaultCap = rl.defaultCap ∧
      (allowSeq rl c nows).2.defaultRefill = rl.defaultRefill := by
  induction nows with
  | nil => intro rl; exact ⟨rfl, rfl, rfl, rfl⟩
  | cons now nows ih =>
    intro rl
    obtain ⟨h1, h2, h3, h4⟩ := ih (rl.AllowRequest c now).2
    obtain ⟨g2, g3, g4⟩ := AllowRequest_limits rl c now
    simp only [allowSeq]
    exact ⟨by rw [h1, AllowRequest_bucket_other rl c d now hne], by rw [h2, g2],
      by rw [h3, g3], by rw [h4, g4]⟩

/-- C20: for distinct clients `c` and `d`, each of `AllowRequest(c)`,
`SetClientLimit(c, _)` and `RemoveClient(c)` leaves the map entry of `d` as it
was (the same bucket with the same four fields, or no bucket), and however many
requests of `c` are served, `AllowRequest(d)` afterwards returns what it would
have returned before them. -/
theorem other_client_untouched (rl : RateLimiter) (c d : String) (hne : d ≠ c)
    (limit : ClientLimit) (now : Int) :
    (rl.AllowRequest c now).2.buckets d = rl.buckets d ∧
      (rl.SetClientLimit c limit now).buckets d = rl.buckets d ∧
      (rl.RemoveClient c).buckets d = rl.buckets d ∧
      ∀ (nows : List Int) (later : Int),
        ((allowSeq rl c nows).2.AllowRequest d later).1 = (rl.AllowRequest d later).1 := by
  refine ⟨AllowRequest_bucket_other rl c d now hne, ?_, ?_, ?_⟩
  · rw [SetClientLimit_buckets, setBucket_other _ _ _ _ hne]
  · simp only [RateLimiter.RemoveClient, deleteBucket, if_neg hne]
  · intro nows later
    obtain ⟨h1, h2, h3, h4⟩ := allowSeq_frame c d hne nows rl
    exact AllowRequest_result_congr _ _ d later h1 h2 h3 h4

/-- Witness of `other_client_untouched`: the scenario of
`TestRateLimiter_MultipleClients`, limits `(3, 1)`; `client1` is exhausted and
the first request of `client2` is allowed. -/
theorem other_client_untouched_witness :
    ((allowSeq (NewRateLimiter 3 1 (fun _ => .error .notFound)) "client1"
        [0, 0, 0, 0]).2.AllowRequest "client2" 1).1 = true :=
  ((other_client_untouched (NewRateLimiter 3 1 (fun _ => .error .notFound))
    "client1" "client2" (by decide) ⟨0, 0⟩ 0).2.2.2 [0, 0, 0, 0] 1).trans (by decide)

/-- C17 (as stated, refuted): with `tokens = 0`, `capacity = 0`,
`refillRate = 2 ^ 62` and two elapsed seconds the product `elapsed * refillRate`
is `2 ^ 63`, which wraps to `-2 ^ 63` in the 64-bit `int`; the refill leaves
`tokens = -2 ^ 63`, not `min(capacity, tokens + elapsed * refillRate) = 0`.  And
`elapsed` is not always the whole number of seconds: 16777216.999999999 s after
the last refill `Seconds()` rounds to the `float64` 16777217, so a bucket with
rate 1 receives 16777217 tokens, one more than the whole seconds elapsed. -/
theorem refill_overflow_not_min :
    wholeSeconds (timeSub (2 * Second) 0) = 2 ∧
      (tokenBucket.refill ⟨0, 2 ^ 62, 0, 0⟩ (2 * Second)).tokens = -(2 ^ 63) ∧
      (tokenBucket.refill ⟨0, 2 ^ 62, 0, 0⟩ (2 * Second)).tokens ≠
        min (0 : Int) (0 + 2 * 2 ^ 62) ∧
      (16777216999999999 : Int) / Second = 16777216 ∧
      wholeSeconds (timeSub 16777216999999999 0) = 16777217 ∧
      (tokenBucket.refill ⟨2 ^ 40, 1, 0, 0⟩ 16777216999999999).tokens = 16777217 ∧
      (tokenBucket.refill ⟨2 ^ 40, 1, 0, 0⟩ 16777216999999999).tokens ≠
        min (2 ^ 40 : Int) (0 + 16777216 * 1) := by
  decide

theorem refill_noop (b : tokenBucket) (now : Int)
    (h : wholeSeconds (timeSub now b.lastRefilled) ≤ 0) : b.refill now = b := by
  unfold tokenBucket.refill
  simp only [h, if_true]

theorem timeSub_of_range (t u : Int) (h0 : 0 ≤ t - u) (h1 : t - u ≤ maxInt) :
    timeSub t u = t - u := by
  unfold timeSub
  unfold maxInt at h1
  rw [if_neg (by unfold minInt; omega), if_neg (by unfold maxInt; omega)]

/-- C17 (amended): `refill` at time `now`, with `elapsed` the value of
`int(now.Sub(lastRefilled).Seconds())`: when `elapsed ≤ 0` the bucket is
unchanged; otherwise, as long as `elapsed * refillRate` and
`tokens + elapsed * refillRate` are inside the 64-bit `int` range, `tokens`
becomes `min(capacity, tokens + elapsed * refillRate)` and `lastRefilled` becomes
`now`, capacity and refill rate staying as they are.  For a duration
`now - lastRefilled` in `[0, 2 ^ 24 s)` `elapsed` is its whole number of seconds;
for every non-negative duration in the `int64` range it is the whole number of
seconds or one more. -/
theorem refill_exact_without_overflow (b : tokenBucket) (now : Int) :
    (wholeSeconds (timeSub now b.lastRefilled) ≤ 0 → b.refill now = b) ∧
    (0 < wholeSeconds (timeSub now b.lastRefilled) →
      minInt ≤ wholeSeconds (timeSub now b.lastRefilled) * b.refillRate →
      wholeSeconds (timeSub now b.lastRefilled) * b.refillRate ≤ maxInt →
      minInt ≤ b.tokens + wholeSeconds (timeSub now b.lastRefilled) * b.refillRate →
      b.tokens + wholeSeconds (timeSub now b.lastRefilled) * b.refillRate ≤ maxInt →
      b.refill now =
        ⟨b.capacity, b.refillRate,
          min b.capacity (b.tokens + wholeSeconds (timeSub now b.lastRefilled) * b.refillRate),
          now⟩) ∧
    (0 ≤ now - b.lastRefilled → now - b.lastRefilled < 2 ^ 24 * Second →
      wholeSeconds (timeSub now b.lastRefilled) = (now - b.lastRefilled) / Second) ∧
    (0 ≤ now - b.lastRefilled → now - b.lastRefilled ≤ maxInt →
      (now - b.lastRefilled) / Second ≤ wholeSeconds (timeSub now b.lastRefilled) ∧
        wholeSeconds (timeSub now b.lastRefilled) ≤ (now - b.lastRefilled) / Second + 1) := by
  refine ⟨refill_noop b now, ?_, ?_, ?_⟩
  · intro h0 h1 h2 h3 h4
    unfold tokenBucket.refill
    simp only [not_le.mpr h0, if_false]
    rw [wrapInt_of_range _ h1 h2, wrapInt_of_range _ h3 h4]
    congr 1
    split_ifs with hgt
    · exact (min_eq_left (le_of_lt hgt)).symm
    · exact (min_eq_right (not_lt.mp hgt)).symm
  · intro h0 h1
    unfold Second at h1 ⊢
    rw [timeSub_of_range _ _ h0 (by unfold maxInt; omega)]
    exact (wholeSeconds_bounds _ h0).2.2.1 h1
  · intro h0 h1
    unfold Second
    rw [timeSub_of_range _ _ h0 h1]
    exact ⟨(wholeSeconds_bounds _ h0).1, (wholeSeconds_bounds _ h0).2.1⟩

/-- Witness of `refill_exact_without_overflow`: capacity 5, refill rate 2,
one token left, three seconds elapsed: the bucket is full again; one nanosecond
short of a second nothing changes; and the three seconds are the whole seconds
of the duration. -/
theorem refill_exact_without_overflow_witness :
    tokenBucket.refill ⟨5, 2, 1, 0⟩ (3 * Second) = ⟨5, 2, 5, 3 * Second⟩ ∧
      tokenBucket.refill ⟨5, 2, 1, 0⟩ (Second - 1) = ⟨5, 2, 1, 0⟩ ∧
      wholeSeconds (timeSub (3 * Second) 0) = 3 :=
  ⟨((refill_exact_without_overflow ⟨5, 2, 1, 0⟩ (3 * Second)).2.1 (by decide) (by decide)
      (by decide) (by decide) (by decide)).trans (by decide),
    (refill_exact_without_overflow ⟨5, 2, 1, 0⟩ (Second - 1)).1 (by decide),
    ((refill_exact_without_overflow ⟨5, 2, 1, 0⟩ (3 * Second)).2.2.1 (by decide)
      (by decide)).trans (by decide)⟩

theorem refill_clamps (b : tokenBucket) (now : Int)
    (h : 0 < wholeSeconds (timeSub now b.lastRefilled)) :
    (b.refill now).tokens ≤ (b.refill now).capacity ∧ (b.refill now).capacity = b.capacity := by
  unfold tokenBucket.refill
  simp only [not_le.mpr h, if_false, and_true]
  split_ifs with hgt
  · exact le_refl _
  · exact not_lt.mp hgt

/-- C18 (as stated, refuted): a bucket created 0.5 s after the ticker started,
with capacity 5, serves one request and is then given capacity 2 by
`SetClientLimit`, so it holds 4 tokens; the next refill, at the tick at 1 s, sees
no whole second elapsed and returns at once: the tokens still exceed the
capacity. -/
theorem refill_after_lowering_not_clamped :
    ((run (NewRateLimiter 5 1 (fun _ => .error .notFound))
        [.allow "c" 500000000, .setLimit "c" ⟨2, 1⟩ 600000000]).buckets "c").map
          (fun b => decide (b.capacity < b.tokens)) = some true ∧
      ((run (NewRateLimiter 5 1 (fun _ => .error .notFound))
        [.allow "c" 500000000, .setLimit "c" ⟨2, 1⟩ 600000000,
          .tick (fun _ => 1000000000)]).buckets "c").map
          (fun b => decide (b.tokens ≤ b.capacity)) = some false := by
  decide

/-- C18 (amended): for every bucket, in particular one whose tokens exceed the
capacity that `SetClientLimit` lowered, a call of `refill()` for which at least
one whole second has elapsed since `lastRefilled` leaves `tokens ≤ capacity`,
with the capacity unchanged; a call with no whole second elapsed leaves the
bucket, and so the excess, as it is. -/
theorem refill_clamps_after_lowering (rl : RateLimiter) (c : String) (limit : ClientLimit)
    (now : Int) (clock : String → Int) (b : tokenBucket) (hb : rl.buckets c = some b) :
    (0 < wholeSeconds (timeSub (clock c) b.lastRefilled) →
      ∃ b2, ((rl.SetClientLimit c limit now).refillTokens clock).buckets c = some b2 ∧
        b2.tokens ≤ b2.capacity ∧ b2.capacity = limit.Capacity) ∧
    (wholeSeconds (timeSub (clock c) b.lastRefilled) ≤ 0 →
      ((rl.SetClientLimit c limit now).refillTokens clock).buckets c =
        some ⟨limit.Capacity, limit.RefillRate, b.tokens, b.lastRefilled⟩) := by
  have hset := SetClientLimit_existing rl c limit now b hb
  constructor
  · intro h
    refine ⟨tokenBucket.refill ⟨limit.Capacity, limit.RefillRate, b.tokens, b.lastRefilled⟩
      (clock c), by simp only [RateLimiter.refillTokens, hset, Option.map_some'], ?_⟩
    exact refill_clamps ⟨limit.Capacity, limit.RefillRate, b.tokens, b.lastRefilled⟩ (clock c) h
  · intro h
    simp only [RateLimiter.refillTokens, hset, Option.map_some']
    have := refill_noop ⟨limit.Capacity, limit.RefillRate, b.tokens, b.lastRefilled⟩
      (clock c) h
    rw [this]

/-- Witness of `refill_clamps_after_lowering`: the bucket of the refuting
scenario is clamped to 2 tokens by the tick at 2 s. -/
theorem refill_clamps_after_lowering_witness :
    ∃ b2, (((step (NewRateLimiter 5 1 (fun _ => .error .notFound))
        (.allow "c" 500000000)).SetClientLimit "c" ⟨2, 1⟩ 600000000).refillTokens
          (fun _ => 2000000000)).buckets "c" = some b2 ∧
      b2.tokens ≤ b2.capacity ∧ b2.capacity = 2 :=
  (refill_clamps_after_lowering (step (NewRateLimiter 5 1 (fun _ => .error .notFound))
    (.allow "c" 500000000)) "c" ⟨2, 1⟩ 600000000 (fun _ => 2000000000)
    ⟨5, 1, 4, 500000000⟩ (by decide)).1 (by decide)

end ratelimiter
namespace balancer

theorem IncConnections_conns (b : Backend) (h0 : 0 ≤ b.ActiveConnections)
    (h1 : b.ActiveConnections < maxInt) :
    b.IncConnections.ActiveConnections = b.ActiveConnections + 1 := by
  unfold Backend.IncConnections
  simp only
  have hmin : minInt ≤ 0 := by unfold minInt; omega
  exact wrapInt_of_range _ (by omega) (by omega)

theorem runConn_bounds (ops : List ConnOp) :
    ∀ b : Backend, 0 ≤ b.ActiveConnections → b.ActiveConnections + ops.length ≤ maxInt →
      0 ≤ (runConn b ops).GetConnections ∧
        (runConn b ops).GetConnections ≤ b.ActiveConnections + ops.length := by
  induction ops with
  | nil =>
    intro b h0 _
    simp only [runConn, List.foldl_nil, Backend.GetConnections, List.length_nil,
      Nat.cast_zero, add_zero]
    exact ⟨h0, le_refl _⟩
  | cons op ops ih =>
    intro b h0 h1
    simp only [List.length_cons, Nat.cast_add, Nat.cast_one] at h1 ⊢
    have hstep : 0 ≤ (op.apply b).ActiveConnections ∧
        (op.apply b).ActiveConnections ≤ b.ActiveConnections + 1 := by
      cases op with
      | inc =>
        have := IncConnections_conns b h0 (by omega)
        simp only [ConnOp.apply, this]
        omega
      | dec =>
        simp only [ConnOp.apply, Backend.DecConnections]
        split_ifs with hpos
        · simp only; omega
        · omega
      | reset =>
        simp only [ConnOp.apply, Backend.ResetConnections]
        omega
    have := ih (op.apply b) hstep.1 (by omega)
    simp only [runConn, List.foldl_cons] at this ⊢
    exact ⟨this.1, by omega⟩

theorem runConn_incs (n : Nat) :
    ∀ b : Backend, 0 ≤ b.ActiveConnections → b.ActiveConnections + n ≤ maxInt →
      (runConn b (List.replicate n .inc)).ActiveConnections = b.ActiveConnections + n := by
  induction n with
  | zero =>
    intro b _ _
    simp [runConn]
  | succ n ih =>
    intro b h0 h1
    push_cast at h1 ⊢
    have hinc := IncConnections_conns b h0 (by omega)
    have := ih b.IncConnections (by omega) (by omega)
    simp only [runConn, List.replicate_succ, List.foldl_cons, ConnOp.apply] at this ⊢
    rw [this, hinc]
    omega

theorem runConn_incs_wrap (n : Nat) (b : Backend) (h0 : 0 ≤ b.ActiveConnections)
    (hn : b.ActiveConnections + n = maxInt) :
    (runConn b (List.replicate (n + 1) .inc)).GetConnections = minInt := by
  have hfirst := runConn_incs n b h0 (le_of_eq hn)
  rw [List.replicate_succ']
  simp only [runConn, List.foldl_append, List.foldl_cons, List.foldl_nil, ConnOp.apply,
    Backend.GetConnections, Backend.IncConnections] at hfirst ⊢
  rw [hfirst, hn]
  simp only [maxInt, minInt, wrapInt]
  norm_num

/-- C13 (as stated, refuted): `IncConnections` is a 64-bit increment, so the
`2 ^ 63`-th `IncConnections()` on a backend created by `NewBackend` wraps the
counter from `2 ^ 63 - 1` to `-2 ^ 63`: `GetConnections()` is negative. -/
theorem connections_negative_after_wrap :
    (runConn (NewBackend "http://a") (List.replicate (2 ^ 63) .inc)).GetConnections < 0 := by
  have e : (2 ^ 63 : Nat) = (2 ^ 63 - 1) + 1 := by norm_num
  rw [e, runConn_incs_wrap (2 ^ 63 - 1) (NewBackend "http://a") (le_refl _)
    (by simp only [NewBackend, maxInt]; norm_num)]
  simp only [minInt]
  norm_num

/-- C13 (amended): for every backend created by `NewBackend` and every sequence
of fewer than `2 ^ 63` `IncConnections`, `DecConnections` and `ResetConnections`
calls, `GetConnections()` is not negative after the sequence (hence after each
of its calls); and `DecConnections` on a backend whose count is 0 leaves the
count at 0. -/
theorem connections_never_negative (url : String) (ops : List ConnOp)
    (hlen : ops.length < 2 ^ 63) :
    0 ≤ (runConn (NewBackend url) ops).GetConnections ∧
      ∀ b : Backend, b.GetConnections = 0 → b.DecConnections.GetConnections = 0 := by
  constructor
  · refine (runConn_bounds ops (NewBackend url) (le_refl _) ?_).1
    simp only [NewBackend, maxInt, zero_add]
    have : (ops.length : Int) < 2 ^ 63 := by exact_mod_cast hlen
    omega
  · intro b hb
    unfold Backend.GetConnections at hb
    unfold Backend.DecConnections Backend.GetConnections
    rw [if_neg (by omega)]
    exact hb

/-- Witness of `connections_never_negative`: two decrements on a fresh
backend, an increment, a reset and a decrement leave the count at 0. -/
theorem connections_never_negative_witness :
    0 ≤ (runConn (NewBackend "http://a") [.dec, .dec, .inc, .reset, .dec]).GetConnections ∧
      (runConn (NewBackend "http://a") [.dec, .dec, .inc, .reset, .dec]).GetConnections = 0 :=
  ⟨(connections_never_negative "http://a" [.dec, .dec, .inc, .reset, .dec]
    (by norm_num)).1, by decide⟩

end balancer
namespace balancer

theorem Inc_then_Dec (b : Backend) (h0 : 0 ≤ b.ActiveConnections)
    (h1 : b.ActiveConnections < maxInt) : b.IncConnections.DecConnections = b := by
  have hinc := IncConnections_conns b h0 h1
  unfold Backend.DecConnections
  rw [if_pos (by omega), hinc]
  unfold Backend.IncConnections
  simp

theorem markFirst_updateAt (url : String) (alive : Bool) (f : Backend → Backend)
    (hurl : ∀ b, (f b).URL = b.URL) (hcomm : ∀ b, f (b.SetAlive alive) = (f b).SetAlive alive)
    (bs : List Backend) :
    ∀ i : Nat, markFirst url alive (updateAt f i bs) = updateAt f i (markFirst url alive bs) := by
  induction bs with
  | nil => intro i; cases i <;> rfl
  | cons b bs ih =>
    intro i
    cases i with
    | zero =>
      simp only [updateAt, markFirst, hurl]
      split_ifs with hu
      · simp only [updateAt, hcomm]
      · simp only [updateAt]
    | succ i =>
      simp only [updateAt, markFirst]
      split_ifs with hu
      · simp only [updateAt]
      · simp only [updateAt, ih i]

theorem updateAt_updateAt (f g : Backend → Backend) (bs : List Backend) :
    ∀ i : Nat, updateAt g i (updateAt f i bs) = updateAt (fun b => g (f b)) i bs := by
  induction bs with
  | nil => intro i; cases i <;> rfl
  | cons b bs ih =>
    intro i
    cases i with
    | zero => rfl
    | succ i => simp only [updateAt, ih i]

theorem updateAt_id (f : Backend → Backend) (bs : List Backend) :
    ∀ i : Nat, (∀ b, bs[i]? = some b → f b = b) → updateAt f i bs = bs := by
  induction bs with
  | nil => intro i _; cases i <;> rfl
  | cons b bs ih =>
    intro i h
    cases i with
    | zero =>
      simp only [updateAt, h b (by simp)]
    | succ i =>
      simp only [updateAt]
      rw [ih i (fun x hx => h x (by simpa using hx))]

theorem markFirst_conns (url : String) (alive : Bool) (bs : List Backend) :
    (markFirst url alive bs).map Backend.GetConnections = bs.map Backend.GetConnections := by
  induction bs with
  | nil => rfl
  | cons b bs ih =>
    simp only [markFirst]
    split_ifs with hu
    · rfl
    · simp only [List.map_cons, ih]

theorem markFirst_getElem_conns (url : String) (alive : Bool) (bs : List Backend) (i : Nat)
    (y : Backend) (hy : (markFirst url alive bs)[i]? = some y) :
    ∃ b, bs[i]? = some b ∧ y.ActiveConnections = b.ActiveConnections := by
  have hmap := congrArg (fun l => l[i]?) (markFirst_conns url alive bs)
  simp only [List.getElem?_map, hy, Option.map_some'] at hmap
  cases hb : bs[i]? with
  | none => rw [hb] at hmap; cases hmap
  | some b =>
    rw [hb] at hmap
    exact ⟨b, rfl, Option.some.inj hmap⟩

theorem NextBackend_backends (p : ServerPool) (draw : Nat) :
    (p.NextBackend draw).2.backends = p.backends := by
  unfold ServerPool.NextBackend
  cases hs : p.strategy with
  | none => rfl
  | some s =>
    cases s with
    | RoundRobin =>
      simp only [Strategy.Next, RoundRobin.Next]
      split_ifs <;> rfl
    | LeastConnectionsStrategy => rfl
    | RandomStrategy => rfl

end balancer

namespace proxy

open balancer

/-- C14 (as stated, refuted): for a backend whose count is `2 ^ 63 - 1` the
increment wraps to `-2 ^ 63` and the decrement, guarded by `> 0`, does nothing;
for a backend whose count is `-1` the increment gives `0` and the decrement does
nothing: in both cases the count after the pair is not the count before it. -/
theorem inc_dec_not_restored :
    (Backend.DecConnections (Backend.IncConnections ⟨"http://a", true, 2 ^ 63 - 1⟩)).GetConnections
        = -(2 ^ 63) ∧
      (Backend.DecConnections (Backend.IncConnections ⟨"http://a", true, -1⟩)).GetConnections
        = 0 := by
  decide

/-- C14 (amended): when every backend of the pool has a count in
`[0, 2 ^ 63 - 2]`, `IncConnections()` followed by `DecConnections()` gives the
backend back as it was, and a request served by `ProxyHandler.ServeHTTP` leaves
the count of every backend at its value before the request, whether the
upstream answered or the forwarding failed (and for the paths that select no
backend). -/
theorem connections_restored_after_request (pool : ServerPool) (draw : Nat)
    (upstream : Except String Response) (r : Request)
    (hrange : ∀ b ∈ pool.backends, 0 ≤ b.ActiveConnections ∧ b.ActiveConnections < maxInt) :
    (∀ b ∈ pool.backends, b.IncConnections.DecConnections = b) ∧
      (ProxyHandler.ServeHTTP pool draw upstream r).2.backends.map Backend.GetConnections =
        pool.backends.map Backend.GetConnections := by
  refine ⟨fun b hb => Inc_then_Dec b (hrange b hb).1 (hrange b hb).2, ?_⟩
  unfold ProxyHandler.ServeHTTP
  split_ifs with hfav
  · rfl
  · have hbk := NextBackend_backends pool draw
    cases hnext : pool.NextBackend draw with
    | mk sel pool1 =>
      rw [hnext] at hbk
      simp only at hbk
      cases sel with
      | none => simp only [hbk]
      | some backend =>
        simp only [hbk]
        have hrestore : ∀ ys : List Backend,
            (∀ y, ys[backend.1]? = some y → 0 ≤ y.ActiveConnections ∧ y.ActiveConnections < maxInt) →
            updateAt Backend.DecConnections backend.1
              (updateAt Backend.IncConnections backend.1 ys) = ys := by
          intro ys hys
          rw [updateAt_updateAt]
          exact updateAt_id _ ys _ (fun y hy => Inc_then_Dec y (hys y hy).1 (hys y hy).2)
        cases upstream with
        | ok resp =>
          simp only
          rw [hrestore pool.backends
            (fun y hy => hrange y (List.getElem?_mem hy))]
        | error err =>
          simp only [ServerPool.MarkBackendAlive]
          rw [markFirst_updateAt backend.2.URL false Backend.IncConnections (fun _ => rfl)
            (fun _ => rfl)]
          rw [hrestore]
          · exact markFirst_conns _ _ _
          · intro y hy
            obtain ⟨b, hb, hconn⟩ := markFirst_getElem_conns _ _ _ _ y hy
            rw [hconn]
            exact hrange b (List.getElem?_mem hb)

/-- Witness of `connections_restored_after_request`: a request to a pool of
two backends with counts 5 and 2 whose forwarding fails; the first backend is
marked dead and both counts are as before. -/
theorem connections_restored_after_request_witness :
    (ProxyHandler.ServeHTTP
        ⟨[⟨"http://a", true, 5⟩, ⟨"http://b", true, 2⟩], 0, some .RoundRobin⟩ 0
        (.error "connection refused") ⟨"/", [], "10.0.0.1:1234"⟩).2.backends.map
          Backend.GetConnections = [5, 2] :=
  (connections_restored_after_request
    ⟨[⟨"http://a", true, 5⟩, ⟨"http://b", true, 2⟩], 0, some .RoundRobin⟩ 0
    (.error "connection refused") ⟨"/", [], "10.0.0.1:1234"⟩ (by decide)).2

end proxy

namespace balancer

/-- C19 (as stated, refuted): on a pool without alive backends
`RoundRobin.Next` returns before the increment, so the cursor stays at 7; and
on a cursor of `2 ^ 64 - 1` the `uint64` increment gives 0. -/
theorem cursor_not_incremented :
    (RoundRobin.Next ⟨[⟨"http://a", false, 0⟩], 7, some .RoundRobin⟩).2.current = 7 ∧
      (RoundRobin.Next ⟨[⟨"http://a", true, 0⟩], 2 ^ 64 - 1, some .RoundRobin⟩).2.current =
        0 := by
  decide

/-- C19 (amended): a call of `RoundRobin.Next` on a pool in which at least one
backend has the alive flag set returns a backend and advances the cursor by one
modulo `2 ^ 64`, whatever the alive set is, changing nothing else; a call on a
pool in which no backend has the alive flag set returns nil and leaves the
pool, cursor included, as it is. -/
theorem cursor_incremented_when_alive (p : ServerPool) :
    ((∃ b ∈ p.backends, b.IsAlive = true) →
      (RoundRobin.Next p).1 ≠ none ∧
      (RoundRobin.Next p).2 =
        { backends := p.backends, current := (p.current + 1) % 2 ^ 64,
          strategy := p.strategy }) ∧
    ((∀ b ∈ p.backends, b.IsAlive = false) → RoundRobin.Next p = (none, p)) := by
  constructor
  · intro hne
    have hne2 := (GetAliveBackends_ne_nil_iff p).2 hne
    have hlen : 0 < p.GetAliveBackends.length := List.length_pos.mpr hne2
    refine ⟨?_, (RoundRobin_Next_eq p hne2).2⟩
    rw [(RoundRobin_Next_eq p hne2).1, List.getElem?_eq_getElem (Nat.mod_lt _ hlen)]
    exact Option.some_ne_none _
  · intro hnil
    have hnil2 := (GetAliveBackends_eq_nil_iff p).2 hnil
    unfold RoundRobin.Next
    simp only [hnil2, List.length_nil, dite_true]

/-- Witness of `cursor_incremented_when_alive`: the alive set shrinks between
two calls and the cursor still goes from 0 to 1 to 2; once the last backend is
marked not alive too, the call returns nil and the cursor stays at 2. -/
theorem cursor_incremented_when_alive_witness :
    (RoundRobin.Next (((RoundRobin.Next
        ((NewServerPool ["http://a", "http://b"]).SetStrategy (some .RoundRobin))).2
          ).MarkBackendAlive "http://a" false)).2.current = 2 ∧
      RoundRobin.Next ⟨[⟨"http://a", false, 0⟩, ⟨"http://b", false, 0⟩], 2,
          some .RoundRobin⟩ =
        (none, ⟨[⟨"http://a", false, 0⟩, ⟨"http://b", false, 0⟩], 2, some .RoundRobin⟩) :=
  ⟨(congrArg ServerPool.current ((cursor_incremented_when_alive (((RoundRobin.Next
      ((NewServerPool ["http://a", "http://b"]).SetStrategy (some .RoundRobin))).2
        ).MarkBackendAlive "http://a" false)).1 (by decide)).2).trans (by decide),
    (cursor_incremented_when_alive
      ⟨[⟨"http://a", false, 0⟩, ⟨"http://b", false, 0⟩], 2, some .RoundRobin⟩).2 (by decide)⟩

end balancer
namespace storage

theorem find_after_insert (rows : List ClientLimit) (l : ClientLimit)
    (hnew : (rows.any (fun row => row.ClientID = l.ClientID)) = false) :
    (rows ++ [l]).find? (fun row => row.ClientID = l.ClientID) = some l := by
  have hnone : rows.find? (fun row => decide (row.ClientID = l.ClientID)) = none := by
    rw [List.find?_eq_none]
    intro x hx
    rw [List.any_eq_false] at hnew
    exact hnew x hx
  rw [List.find?_append, hnone]
  simp

end storage

namespace api

open storage ratelimiter

/-- C15 (as stated, refuted): a well-formed request for a client that does not
exist, `{"client_id":"x","capacity":5,"rate_per_sec":1}`, during which the
driver fails with an I/O error, is answered `409`, not `201`, and nothing is
stored: the handler answers `409` to every error of `Repo.Create`. -/
theorem create_conflict_without_duplicate :
    (ClientHandler.Create ⟨⟨[]⟩, NewRateLimiter 10 1 (SQLiteClientRepo.view ⟨[]⟩)⟩
        (some ⟨"x", 5, 1⟩) (some "disk I/O error") 0).1.status = 409 ∧
      SQLiteClientRepo.has ⟨[]⟩ "x" = false ∧
      (ClientHandler.Create ⟨⟨[]⟩, NewRateLimiter 10 1 (SQLiteClientRepo.view ⟨[]⟩)⟩
        (some ⟨"x", 5, 1⟩) (some "disk I/O error") 0).2.Repo.rows = [] := by
  decide

/-- C15 (amended): `ClientHandler.Create` answers `400` exactly when the body
does not decode or `client_id` is empty or `capacity ≤ 0` or `rate_per_sec ≤ 0`;
otherwise `409` when a client with that `client_id` exists; otherwise, when the
driver does not fail during `Repo.Create`, `201` with the submitted limit as the
body, the limit stored in the repository and handed to `SetClientLimit`; and
whenever the answer is `400` or `409` the repository and the buckets of the
limiter are as before. -/
theorem create_responses (h : ClientHandler) (body : Option ClientLimitRequest)
    (fault : Option String) (now : Int) :
    (body = none → (h.Create body fault now).1.status = 400) ∧
    (∀ req, body = some req →
      ((h.Create body fault now).1.status = 400 ↔
        (req.ClientID = "" ∨ req.Capacity ≤ 0 ∨ req.RefillRate ≤ 0)) ∧
      (¬ (req.ClientID = "" ∨ req.Capacity ≤ 0 ∨ req.RefillRate ≤ 0) →
        h.Repo.has req.ClientID = true → (h.Create body fault now).1.status = 409) ∧
      (¬ (req.ClientID = "" ∨ req.Capacity ≤ 0 ∨ req.RefillRate ≤ 0) →
        h.Repo.has req.ClientID = false → fault = none →
        (h.Create body fault now).1 =
            ⟨201, .limit ⟨req.ClientID, req.Capacity, req.RefillRate⟩⟩ ∧
          (h.Create body fault now).2.Repo.rows =
            h.Repo.rows ++ [⟨req.ClientID, req.Capacity, req.RefillRate⟩] ∧
          (h.Create body fault now).2.Repo.Get none req.ClientID =
            .ok ⟨req.ClientID, req.Capacity, req.RefillRate⟩ ∧
          (h.Create body fault now).2.Limiter.buckets =
            (h.Limiter.SetClientLimit req.ClientID ⟨req.Capacity, req.RefillRate⟩ now).buckets)) ∧
    (((h.Create body fault now).1.status = 400 ∨ (h.Create body fault now).1.status = 409) →
      (h.Create body fault now).2.Repo = h.Repo ∧
        (h.Create body fault now).2.Limiter.buckets = h.Limiter.buckets) := by
  refine ⟨?_, ?_, ?_⟩
  · intro hb
    subst hb
    rfl
  · intro req hb
    subst hb
    refine ⟨?_, ?_, ?_⟩
    · unfold ClientHandler.Create
      simp only
      split_ifs with hinv
      · simp [hinv]
      · simp only [hinv, iff_false]
        unfold SQLiteClientRepo.Create
        cases fault with
        | some msg => simp
        | none =>
          simp only
          split_ifs <;> simp
    · intro hvalid hhas
      unfold ClientHandler.Create
      simp only [hvalid, if_false]
      unfold SQLiteClientRepo.Create
      cases fault with
      | some msg => rfl
      | none => simp only [hhas, if_true]
    · intro hvalid hhas hfault
      subst hfault
      unfold ClientHandler.Create
      simp only [hvalid, if_false]
      unfold SQLiteClientRepo.Create
      simp only [hhas, Bool.false_eq_true, if_false, true_and]
      refine ⟨?_, ?_⟩
      · unfold SQLiteClientRepo.Get
        simp only
        rw [find_after_insert h.Repo.rows ⟨req.ClientID, req.Capacity, req.RefillRate⟩ hhas]
      · rw [SetClientLimit_buckets, SetClientLimit_buckets]
        rfl
  · intro hst
    unfold ClientHandler.Create at hst ⊢
    cases body with
    | none => exact ⟨rfl, rfl⟩
    | some req =>
      simp only at hst ⊢
      split_ifs at hst ⊢ with hinv
      · exact ⟨rfl, rfl⟩
      · unfold SQLiteClientRepo.Create at hst ⊢
        cases fault with
        | some msg => exact ⟨rfl, rfl⟩
        | none =>
          simp only at hst ⊢
          split_ifs at hst ⊢ with hhas
          · exact ⟨rfl, rfl⟩
          · simp at hst

/-- Witness of `create_responses`: the requests of `TestClientCRUDOperations`;
creating `test-client` with `(5, 1)` is answered `201` with the limit echoed,
and the limit is stored. -/
theorem create_responses_witness :
    (ClientHandler.Create ⟨⟨[]⟩, NewRateLimiter 10 1 (SQLiteClientRepo.view ⟨[]⟩)⟩
        (some ⟨"test-client", 5, 1⟩) none 0).1 = ⟨201, .limit ⟨"test-client", 5, 1⟩⟩ ∧
      (ClientHandler.Create ⟨⟨[]⟩, NewRateLimiter 10 1 (SQLiteClientRepo.view ⟨[]⟩)⟩
        (some ⟨"test-client", 5, 1⟩) none 0).2.Repo.Get none "test-client" =
          .ok ⟨"test-client", 5, 1⟩ :=
  have h := (((create_responses ⟨⟨[]⟩, NewRateLimiter 10 1 (SQLiteClientRepo.view ⟨[]⟩)⟩
    (some ⟨"test-client", 5, 1⟩) none 0).2.1 ⟨"test-client", 5, 1⟩ rfl).2.2 (by decide)
      (by decide) rfl)
  ⟨h.1, h.2.2.1⟩

theorem Get_status_on_failure (h : ClientHandler) (clientID msg : String) :
    (h.Get clientID (some msg)).1.status = 404 := by
  rfl

/-- C16 (the code at the failing inputs): with a repository that holds the
client `x` and a driver that fails with an I/O error, `Create` of a new client
answers `409`, `Get` answers `404` and `Update` answers `404`, while `Delete`
(on the failure of either of its two repository calls) and `List` answer `500`. -/
theorem repository_failure_statuses :
    (ClientHandler.Create ⟨⟨[⟨"x", 5, 1⟩]⟩, NewRateLimiter 10 1 (fun _ => .error .notFound)⟩
        (some ⟨"y", 5, 1⟩) (some "disk I/O error") 0).1.status = 409 ∧
      (ClientHandler.Get ⟨⟨[⟨"x", 5, 1⟩]⟩, NewRateLimiter 10 1 (fun _ => .error .notFound)⟩
        "x" (some "disk I/O error")).1.status = 404 ∧
      (ClientHandler.Update ⟨⟨[⟨"x", 5, 1⟩]⟩, NewRateLimiter 10 1 (fun _ => .error .notFound)⟩
        "x" (some ⟨"x", 10, 2⟩) (some "disk I/O error") 0).1.status = 404 ∧
      (ClientHandler.Delete ⟨⟨[⟨"x", 5, 1⟩]⟩, NewRateLimiter 10 1 (fun _ => .error .notFound)⟩
        "x" (some "disk I/O error") none).1.status = 500 ∧
      (ClientHandler.Delete ⟨⟨[⟨"x", 5, 1⟩]⟩, NewRateLimiter 10 1 (fun _ => .error .notFound)⟩
        "x" none (some "disk I/O error")).1.status = 500 ∧
      (ClientHandler.List ⟨⟨[⟨"x", 5, 1⟩]⟩, NewRateLimiter 10 1 (fun _ => .error .notFound)⟩
        (some "disk I/O error")).1.status = 500 := by
  decide

end api

namespace balancer

theorem markFirst_other_url (url : String) (alive : Bool) (bs : List Backend) :
    ∀ (k : Nat) (b : Backend), bs[k]? = some b → b.URL ≠ url →
      (markFirst url alive bs)[k]? = some b := by
  induction bs with
  | nil => intro k b hk _; exact hk
  | cons x xs ih =>
    intro k b hk hurl
    unfold markFirst
    cases k with
    | zero =>
      simp only [List.getElem?_cons_zero, Option.some.injEq] at hk
      subst hk
      rw [if_neg hurl]
      exact List.getElem?_cons_zero
    | succ k =>
      rw [List.getElem?_cons_succ] at hk
      split_ifs with hx
      · rw [List.getElem?_cons_succ]
        exact hk
      · rw [List.getElem?_cons_succ]
        exact ih k b hk hurl

theorem markFirst_distinct_urls (url : String) (alive : Bool) (bs : List Backend)
    (hdistinct : List.Pairwise (fun x y : Backend => x.URL ≠ y.URL) bs) :
    ∀ y ∈ markFirst url alive bs, y.URL = url → y.Alive = alive := by
  induction bs with
  | nil => intro y hy; cases hy
  | cons x xs ih =>
    intro y hy hurl
    obtain ⟨hx, hxs⟩ := List.pairwise_cons.mp hdistinct
    unfold markFirst at hy
    split_ifs at hy with hxu
    · rcases List.mem_cons.mp hy with rfl | hmem
      · rfl
      · exact absurd (hxu.trans hurl.symm) (hx y hmem)
    · rcases List.mem_cons.mp hy with rfl | hmem
      · exact absurd hurl hxu
      · exact ih hxs y hmem hurl

end balancer

namespace proxy

open balancer

/-- C21 (the code at the failing input): on a pool to which `AddBackend` has
added `http://a` twice, `MarkBackendAlive("http://a", false)` stops at the first
match, so the second backend with that URL keeps `alive = true`.  When
round-robin selects the second backend and forwarding to it fails, the error
handler's `MarkBackendAlive(backend.URL, false)` marks the first one: the
backend that failed, at pool position 1, is still in `GetAliveBackends()`. -/
theorem failed_duplicate_stays_alive :
    ((((NewServerPool []).AddBackend "http://a").AddBackend "http://a").MarkBackendAlive
        "http://a" false).backends = [⟨"http://a", false, 0⟩, ⟨"http://a", true, 0⟩] ∧
    ((((((NewServerPool []).AddBackend "http://a").AddBackend "http://a").SetStrategy
        (some .RoundRobin)).afterCalls [0]).NextBackend 0).1 = some (1, NewBackend "http://a") ∧
    ((1, NewBackend "http://a") : BackendRef) ∈
      (ProxyHandler.ServeHTTP
        (((((NewServerPool []).AddBackend "http://a").AddBackend "http://a").SetStrategy
          (some .RoundRobin)).afterCalls [0]) 0 (.error "connection refused")
        ⟨"/", [], "10.0.0.1:1234"⟩).2.GetAliveBackends := by
  decide

end proxy

end Balancer
